import Mathlib

/-!
# Verification of the shadup content-addressed store (`shadup/shadup.py`)

Two shallow embeddings of the source are used.

* A **string path model** for the catalog query layer (`posixpath.normpath`,
  `os.path.join`, `os.path.dirname`, prefix matching, `list_db_entries`,
  `list_children`, `delete_from_db`, the `--mindup` filter of `handle_ls`).
  Paths are `String`s and the helpers mirror CPython's `posixpath`.

* A **component path model** for the filesystem-mutating layer (ingestion,
  blob store, fixlinks).  An absolute POSIX path is represented by its list
  of components (`/a/b` is `["a", "b"]`); `os.path.abspath` on an absolute
  path becomes component normalization.  The filesystem is a flat
  association list from paths to entries (regular file with contents, or
  symlink with an absolute target); directories are implicit, and symlinks
  are resolved with bounded fuel (cycles resolve to nothing, like `ELOOP`).

SHA-256 itself is a parameter `hash : List Nat → String` of every definition
that hashes; file contents are byte lists (`List Nat`).
-/

namespace Shadup

/-! ## posixpath helpers (string model)

Lean core's `String.startsWith`, `String.splitOn`, `String.map` and the
`String` order are compiled primitives that the kernel cannot evaluate, so
the model implements the same functions structurally over the underlying
character lists; each definition states which Python function it renders. -/

/-- POSIX path separator, `os.sep`. -/
def sep : String := "/"

/-- `str.startswith` / `String.startsWith`. -/
def startsWithStr (s pre : String) : Bool := pre.data.isPrefixOf s.data

/-- `str.split(c)` over character lists (CPython splits on every occurrence,
keeping empty pieces). -/
def splitChar (c : Char) : List Char → List (List Char)
  | [] => [[]]
  | x :: xs =>
    let r := splitChar c xs
    if x == c then [] :: r
    else match r with
      | [] => [[x]]
      | y :: ys => (x :: y) :: ys

/-- `posixpath.isabs`. -/
def isabs (s : String) : Bool := startsWithStr s sep

/-- `posixpath.normpath`: collapse `//`, drop `.` components, resolve `..`
where possible; empty result becomes `"."`.  The accumulator is kept
reversed (Python appends to / pops from the end of `new_comps`). -/
def normpathStr (path : String) : String :=
  if path = "" then "." else
  let initialSlashes : Nat :=
    if startsWithStr path "//" && !(startsWithStr path "///") then 2
    else if startsWithStr path "/" then 1 else 0
  let comps := (splitChar '/' path.data).map String.mk
  let newComps := (comps.foldl (fun acc comp =>
    if comp == "" || comp == "." then acc
    else if comp != ".." || (initialSlashes == 0 && acc.isEmpty)
            || (!acc.isEmpty && acc.headD "" == "..") then comp :: acc
    else acc.tail) []).reverse
  let joined := String.intercalate "/" newComps
  let res := String.join (List.replicate initialSlashes "/") ++ joined
  if res = "" then "." else res

/-- Binary `os.path.join` for POSIX paths. -/
def joinStr (a b : String) : String :=
  if isabs b then b
  else if a = "" || a.data.getLast? == some '/' then a ++ b
  else a ++ "/" ++ b

/-- `os.path.join(a, b, c)`. -/
def join3 (a b c : String) : String := joinStr (joinStr a b) c

/-- `posixpath.dirname`: everything before the last separator, with trailing
separators stripped unless the head is all separators. -/
def dirnameStr (p : String) : String :=
  let cs := p.data
  let k := cs.reverse.findIdx (fun c => c == '/')
  let i := cs.length - k
  let head := cs.take i
  if head.isEmpty || head.all (fun c => c == '/') then String.mk head
  else String.mk ((head.reverse.dropWhile (fun c => c == '/')).reverse)

/-- `HASH_RE`: a 64 character lowercase hexadecimal string. -/
def isHex64 (s : String) : Bool :=
  s.length == 64 && s.data.all (fun c => c.isDigit || ('a' ≤ c && c ≤ 'f'))

/-- `str.lower` (restricted to the ASCII case mapping used by digests). -/
def lowerStr (s : String) : String := String.mk (s.data.map Char.toLower)

/-! ## Catalog rows as stored in SQLite (string model)

`stored_files(shasum, root, root_rel, dirpath, filename, deleted)` with a
unique index on `(shasum, root_rel, dirpath, filename)`. -/

structure DbRow where
  shasum : String
  root : String
  rootRel : String
  dirpath : String
  filename : String
  deleted : Bool
deriving DecidableEq

/-- The logical path of a row: `normpath(join(root_rel, dirpath, filename))`
(line 526 / 579 / 1100 of the source). -/
def rowPath (r : DbRow) : String := normpathStr (join3 r.rootRel r.dirpath r.filename)

/-- `list_db_entries`: select rows (active only unless `show_deleted`) and
return `(path, shasum, deleted)` triples. -/
def listDbEntries (rows : List DbRow) (showDeleted : Bool) : List (String × String × Bool) :=
  let selected := if showDeleted then rows else rows.filter (fun r => !r.deleted)
  selected.map (fun r => (rowPath r, r.shasum, r.deleted))

/-- `_matches_prefix(target_rel, normalized_prefixes)`. -/
def matchesPrefix (targetRel : String) (normalizedPrefixes : List String) : Bool :=
  normalizedPrefixes.any (fun pre => targetRel == pre || startsWithStr targetRel (pre ++ sep))

/-- `normalize_prefixes`: drop absolute prefixes, normalize the rest.
`list_children` and `_normalize_extract_prefixes` inline the same loop. -/
def normalizePrefixes (pres : List String) : List String :=
  pres.filterMap (fun p => if isabs p then none else some (normpathStr p))

/-- Python `dict` assignment `m[k] = v` (insertion order preserved,
existing keys updated in place). -/
def dictSet {β : Type} (m : List (String × β)) (k : String) (v : β) : List (String × β) :=
  if m.any (fun e => e.1 == k) then m.map (fun e => if e.1 == k then (k, v) else e)
  else m ++ [(k, v)]

/-- Strict lexicographic comparison of character lists: Python's `<` on
strings (comparison of code points). -/
def listCharLt : List Char → List Char → Bool
  | [], [] => false
  | [], _ :: _ => true
  | _ :: _, [] => false
  | a :: as, b :: bs => if a == b then listCharLt as bs else decide (a.toNat < b.toNat)

/-- Python `str` `<`. -/
def strLt (a b : String) : Bool := listCharLt a.data b.data

/-- Tuple ordering used by `sorted` on `(path, shasum, deleted)` triples:
lexicographic, `False < True` for booleans. -/
def entryLe (x y : String × String × Bool) : Bool :=
  if x.1 == y.1 then
    (if x.2.1 == y.2.1 then !x.2.2 || y.2.2 else strLt x.2.1 y.2.1)
  else strLt x.1 y.1

/-- Insert into a sorted list (model of Python `sorted`, which for a total
order on the elements produces the unique sorted arrangement). -/
def insertSorted {α : Type} (le : α → α → Bool) (x : α) : List α → List α
  | [] => [x]
  | y :: ys => if le x y then x :: y :: ys else y :: insertSorted le x ys

/-- Insertion sort, the model of Python `sorted`. -/
def isort {α : Type} (le : α → α → Bool) : List α → List α
  | [] => []
  | x :: xs => insertSorted le x (isort le xs)

/-- `list_children(conn, prefixes, recursive, show_deleted)`: with no
prefixes, `sorted(set(entries))`; otherwise keep entries whose path equals a
normalized prefix or starts with `prefix + os.sep` (the `recursive` flag is
tested but both branches of the source do the same thing), last write wins
per path, and sort. -/
def childResults (normalized : List String) (recursive : Bool)
    (entries : List (String × String × Bool)) : List (String × (String × Bool)) :=
  entries.foldl (fun m e =>
    match normalized.find? (fun pre => e.1 == pre || startsWithStr e.1 (pre ++ sep)) with
    | some _ => if recursive then dictSet m e.1 (e.2.1, e.2.2) else dictSet m e.1 (e.2.1, e.2.2)
    | none => m) []

def listChildren (rows : List DbRow) (pres : List String) (recursive showDeleted : Bool) :
    List (String × String × Bool) :=
  let entries := listDbEntries rows showDeleted
  if pres.isEmpty then isort entryLe entries.dedup
  else
    let results := childResults (normalizePrefixes pres) recursive entries
    isort entryLe (results.map (fun e => (e.1, e.2.1, e.2.2)))

/-- The rows `delete_from_db` selects for soft deletion: candidate rows
(active only unless `show_deleted`), first matching prefix wins, recursive
mode matches descendants, non-recursive mode matches exact paths only. -/
def deleteTargets (candidates : List DbRow) (normalized : List String) (recursive : Bool) :
    List DbRow :=
  candidates.filter (fun r =>
    normalized.any (fun pre =>
      if recursive then rowPath r == pre || startsWithStr (rowPath r) (pre ++ sep)
      else rowPath r == pre))

/-- `delete_from_db`: returns the updated table and the reported count.
The `UPDATE` marks every row whose unique key equals a target row's key. -/
def deleteFromDb (table : List DbRow) (pres : List String) (recursive showDeleted : Bool) :
    List DbRow × Nat :=
  let normalized := normalizePrefixes pres
  if normalized.isEmpty then (table, 0)
  else
    let candidates := if showDeleted then table else table.filter (fun r => !r.deleted)
    let targetRows := deleteTargets candidates normalized recursive
    if targetRows.isEmpty then (table, 0)
    else
      (table.map (fun r =>
        if targetRows.any (fun t => t.shasum == r.shasum && t.rootRel == r.rootRel
            && t.dirpath == r.dirpath && t.filename == r.filename)
        then { r with deleted := true } else r),
      targetRows.length)

/-! ## The `--mindup` filter of `handle_ls` (source lines 1007-1019).

Python builds dictionaries; the model uses association lists with the same
setdefault/append and counter-increment semantics. -/

/-- `grouped.setdefault(sha, []).append(path)`. -/
def setdefaultAppend (m : List (String × List String)) (k v : String) :
    List (String × List String) :=
  if m.any (fun e => e.1 == k) then m.map (fun e => if e.1 == k then (e.1, e.2 ++ [v]) else e)
  else m ++ [(k, [v])]

/-- `grouped`: digest to the list of paths carrying it. -/
def groupedBySha (entries : List (String × String × Bool)) : List (String × List String) :=
  entries.foldl (fun m e => setdefaultAppend m e.2.1 e.1) []

/-- `dup_shasums`: digests with **more than one** occurrence (`len(paths) > 1`;
note the threshold is not `mindup`). -/
def dupShasums (entries : List (String × String × Bool)) : List String :=
  (groupedBySha entries).filterMap (fun e => if 1 < e.2.length then some e.1 else none)

/-- `dir_counts[dirpath] = dir_counts.get(dirpath, 0) + 1`. -/
def counterInc (m : List (String × Nat)) (k : String) : List (String × Nat) :=
  if m.any (fun e => e.1 == k) then m.map (fun e => if e.1 == k then (e.1, e.2 + 1) else e)
  else m ++ [(k, 1)]

/-- `dir_counts`: per directory, how many entries carry a duplicated digest. -/
def dirCounts (entries : List (String × String × Bool)) : List (String × Nat) :=
  entries.foldl (fun m e =>
    if (dupShasums entries).contains e.2.1 then counterInc m (dirnameStr e.1) else m) []

/-- `allowed_dirs`: directories whose count reaches `mindup`. -/
def allowedDirs (entries : List (String × String × Bool)) (mindup : Nat) : List String :=
  (dirCounts entries).filterMap (fun e => if mindup ≤ e.2 then some e.1 else none)

/-- The `mindup > 1` filter of `handle_ls`: keep every entry whose directory
is allowed. -/
def mindupFilter (entries : List (String × String × Bool)) (mindup : Nat) :
    List (String × String × Bool) :=
  if 1 < mindup && !entries.isEmpty then
    entries.filter (fun e => (allowedDirs entries mindup).contains (dirnameStr e.1))
  else entries

/-- `handle_ls` up to output formatting: list then filter. -/
def handleLs (rows : List DbRow) (pres : List String) (recursive showDeleted : Bool)
    (mindup : Nat) : List (String × String × Bool) :=
  mindupFilter (listChildren rows pres recursive showDeleted) mindup

/-! ## General lemmas on the list combinators of the model -/

theorem foldl_keep {α β : Type} (f : β → α → β) (l : List α) (m : β)
    (hf : ∀ m a, a ∈ l → f m a = m) : l.foldl f m = m := by
  induction l generalizing m with
  | nil => rfl
  | cons x xs ih =>
    rw [List.foldl_cons, hf m x (by simp)]
    exact ih _ (fun m a ha => hf m a (List.mem_cons_of_mem _ ha))

theorem mem_insertSorted {α : Type} (le : α → α → Bool) (x : α) (l : List α) (z : α) :
    z ∈ insertSorted le x l ↔ z = x ∨ z ∈ l := by
  induction l with
  | nil => simp [insertSorted]
  | cons y ys ih =>
    by_cases h : le x y = true
    · simp [insertSorted, h]
    · rw [insertSorted, if_neg h]
      simp only [List.mem_cons, ih]
      tauto

theorem mem_isort {α : Type} (le : α → α → Bool) (l : List α) (z : α) :
    z ∈ isort le l ↔ z ∈ l := by
  induction l with
  | nil => simp [isort]
  | cons x xs ih => simp [isort, mem_insertSorted, ih]

theorem pairwise_insertSorted {α : Type} (le : α → α → Bool)
    (htot : ∀ a b, le a b = true ∨ le b a = true)
    (htrans : ∀ a b c, le a b = true → le b c = true → le a c = true)
    (x : α) (l : List α) (h : l.Pairwise (fun a b => le a b = true)) :
    (insertSorted le x l).Pairwise (fun a b => le a b = true) := by
  induction l with
  | nil => simp [insertSorted]
  | cons y ys ih =>
    rcases List.pairwise_cons.mp h with ⟨hy, hys⟩
    by_cases hxy : le x y = true
    · rw [insertSorted, if_pos hxy]
      refine List.pairwise_cons.mpr ⟨?_, h⟩
      intro z hz
      rcases List.mem_cons.mp hz with rfl | hz
      · exact hxy
      · exact htrans x y z hxy (hy z hz)
    · rw [insertSorted, if_neg hxy]
      refine List.pairwise_cons.mpr ⟨?_, ih hys⟩
      intro z hz
      rcases (mem_insertSorted le x ys z).mp hz with rfl | hz
      · rcases htot z y with h1 | h1
        · exact absurd h1 hxy
        · exact h1
      · exact hy z hz

theorem pairwise_isort {α : Type} (le : α → α → Bool)
    (htot : ∀ a b, le a b = true ∨ le b a = true)
    (htrans : ∀ a b c, le a b = true → le b c = true → le a c = true)
    (l : List α) : (isort le l).Pairwise (fun a b => le a b = true) := by
  induction l with
  | nil => simp [isort]
  | cons x xs ih => exact pairwise_insertSorted le htot htrans x _ ih

theorem uint32_toNat_inj (a b : UInt32) (h : a.toNat = b.toNat) : a = b := by
  cases a; cases b
  congr 1
  exact BitVec.eq_of_toNat_eq h

theorem char_toNat_inj (a b : Char) (h : a.toNat = b.toNat) : a = b :=
  Char.ext (uint32_toNat_inj _ _ h)

theorem listCharLt_irrefl : ∀ a : List Char, listCharLt a a = false := by
  intro a
  induction a with
  | nil => rfl
  | cons x xs ih => simp [listCharLt, ih]

theorem listCharLt_trans :
    ∀ a b c : List Char, listCharLt a b = true → listCharLt b c = true →
      listCharLt a c = true := by
  intro a
  induction a with
  | nil =>
    intro b c hab hbc
    cases b with
    | nil => exact absurd hab (by simp [listCharLt])
    | cons y ys =>
      cases c with
      | nil => exact absurd hbc (by simp [listCharLt])
      | cons z zs => simp [listCharLt]
  | cons x xs ih =>
    intro b c hab hbc
    cases b with
    | nil => exact absurd hab (by simp [listCharLt])
    | cons y ys =>
      cases c with
      | nil => exact absurd hbc (by simp [listCharLt])
      | cons z zs =>
        by_cases hxy : (x == y) = true
        · have hxy' : x = y := by exact eq_of_beq hxy
          subst hxy'
          rw [listCharLt, if_pos (by simp)] at hab
          by_cases hyz : (x == z) = true
          · have : x = z := eq_of_beq hyz
            subst this
            rw [listCharLt, if_pos (by simp)] at hbc ⊢
            exact ih ys zs hab hbc
          · rw [listCharLt, if_neg hyz] at hbc ⊢
            exact hbc
        · rw [listCharLt, if_neg hxy] at hab
          by_cases hyz : (y == z) = true
          · have : y = z := eq_of_beq hyz
            subst this
            rw [listCharLt, if_neg hxy]
            exact hab
          · rw [listCharLt, if_neg hyz] at hbc
            have hxz : x.toNat < z.toNat :=
              Nat.lt_trans (of_decide_eq_true hab) (of_decide_eq_true hbc)
            have hne : (x == z) = false := by
              apply beq_eq_false_iff_ne.mpr
              intro h
              subst h
              exact Nat.lt_irrefl _ hxz
            rw [listCharLt, if_neg (by simp [hne])]
            exact decide_eq_true hxz

theorem listCharLt_connex :
    ∀ a b : List Char, listCharLt a b = false → listCharLt b a = false → a = b := by
  intro a
  induction a with
  | nil =>
    intro b hab _
    cases b with
    | nil => rfl
    | cons y ys => exact absurd hab (by simp [listCharLt])
  | cons x xs ih =>
    intro b hab hba
    cases b with
    | nil => exact absurd hba (by simp [listCharLt])
    | cons y ys =>
      by_cases hxy : (x == y) = true
      · have hx : x = y := eq_of_beq hxy
        subst hx
        rw [listCharLt, if_pos (by simp)] at hab hba
        rw [ih ys hab hba]
      · rw [listCharLt, if_neg hxy] at hab
        have hyx : (y == x) = false := by
          apply beq_eq_false_iff_ne.mpr
          intro h
          exact (beq_eq_false_iff_ne.mp (by simpa using hxy)) h.symm
        rw [listCharLt, if_neg (by simp [hyx])] at hba
        have h1 : ¬ x.toNat < y.toNat := of_decide_eq_false hab
        have h2 : ¬ y.toNat < x.toNat := of_decide_eq_false hba
        have : x.toNat = y.toNat :=
          Nat.le_antisymm (Nat.le_of_not_lt h2) (Nat.le_of_not_lt h1)
        exact absurd (char_toNat_inj x y this) (by simpa using hxy)

theorem strLt_irrefl (a : String) : strLt a a = false := listCharLt_irrefl a.data

theorem strLt_trans {a b c : String} (h1 : strLt a b = true) (h2 : strLt b c = true) :
    strLt a c = true := listCharLt_trans a.data b.data c.data h1 h2

theorem strLt_connex {a b : String} (h1 : strLt a b = false) (h2 : strLt b a = false) :
    a = b := by
  cases a with
  | mk da => cases b with
    | mk db => exact congrArg String.mk (listCharLt_connex da db h1 h2)

theorem strLt_of_ne {a b : String} (hne : a ≠ b) :
    strLt a b = true ∨ strLt b a = true := by
  by_cases h : strLt a b = true
  · exact Or.inl h
  · by_cases h2 : strLt b a = true
    · exact Or.inr h2
    · have h' : strLt a b = false := by simpa using h
      have h2' : strLt b a = false := by simpa using h2
      exact absurd (strLt_connex h' h2') hne

theorem strLt_ne {a b : String} (h : strLt a b = true) : a ≠ b := by
  intro hab
  subst hab
  simp [strLt_irrefl] at h

theorem entryLe_total (x y : String × String × Bool) :
    entryLe x y = true ∨ entryLe y x = true := by
  simp only [entryLe, beq_iff_eq]
  by_cases h1 : x.1 = y.1
  · rw [if_pos h1, if_pos h1.symm]
    by_cases h2 : x.2.1 = y.2.1
    · rw [if_pos h2, if_pos h2.symm]
      cases x.2.2 <;> cases y.2.2 <;> simp
    · rw [if_neg h2, if_neg (Ne.symm h2)]
      exact strLt_of_ne h2
  · rw [if_neg h1, if_neg (Ne.symm h1)]
    exact strLt_of_ne h1

theorem entryLe_trans (x y z : String × String × Bool)
    (h1 : entryLe x y = true) (h2 : entryLe y z = true) : entryLe x z = true := by
  simp only [entryLe, beq_iff_eq] at h1 h2 ⊢
  by_cases e1 : x.1 = y.1 <;> by_cases e2 : y.1 = z.1
  · rw [if_pos e1] at h1
    rw [if_pos e2] at h2
    rw [if_pos (e1.trans e2)]
    by_cases f1 : x.2.1 = y.2.1 <;> by_cases f2 : y.2.1 = z.2.1
    · rw [if_pos f1] at h1
      rw [if_pos f2] at h2
      rw [if_pos (f1.trans f2)]
      cases hx : x.2.2 <;> cases hy : y.2.2 <;> cases hz : z.2.2 <;> simp_all
    · rw [if_pos f1] at h1
      rw [if_neg f2] at h2
      rw [if_neg (fun h => f2 (f1 ▸ h)), f1]
      exact h2
    · rw [if_neg f1] at h1
      rw [if_pos f2] at h2
      rw [if_neg (fun h => f1 (h.trans f2.symm)), ← f2]
      exact h1
    · rw [if_neg f1] at h1
      rw [if_neg f2] at h2
      have h3 := strLt_trans h1 h2
      rw [if_neg (strLt_ne h3)]
      exact h3
  · rw [if_pos e1] at h1
    rw [if_neg e2] at h2
    rw [if_neg (fun h => e2 (e1 ▸ h)), e1]
    exact h2
  · rw [if_neg e1] at h1
    rw [if_pos e2] at h2
    rw [if_neg (fun h => e1 (h.trans e2.symm)), ← e2]
    exact h1
  · rw [if_neg e1] at h1
    rw [if_neg e2] at h2
    have h3 := strLt_trans h1 h2
    rw [if_neg (strLt_ne h3)]
    exact h3

/-- An `entryLe` step weakens to the path ordering of the claim. -/
theorem entryLe_path (x y : String × String × Bool) (h : entryLe x y = true) :
    strLt x.1 y.1 = true ∨ x.1 = y.1 := by
  simp only [entryLe, beq_iff_eq] at h
  by_cases e1 : x.1 = y.1
  · exact Or.inr e1
  · rw [if_neg e1] at h
    exact Or.inl h

/-! ## Prefix matching (C4) -/

/-- Spec-side prefix matching, following the spec's words: the logical path
equals the prefix, or it extends `prefix + separator` by some suffix. -/
def specPrefixMatch (pre path : String) : Prop :=
  path = pre ∨ ∃ rest, path.data = (pre ++ sep).data ++ rest

theorem startsWithStr_iff (s pre : String) :
    startsWithStr s pre = true ↔ ∃ rest, s.data = pre.data ++ rest := by
  unfold startsWithStr
  rw [List.isPrefixOf_iff_prefix]
  constructor
  · rintro ⟨t, ht⟩
    exact ⟨t, ht.symm⟩
  · rintro ⟨t, ht⟩
    exact ⟨t, ht.symm⟩

theorem matchesPrefix_iff (t : String) (pres : List String) :
    matchesPrefix t pres = true ↔ ∃ pre ∈ pres, specPrefixMatch pre t := by
  unfold matchesPrefix specPrefixMatch
  rw [List.any_eq_true]
  constructor
  · rintro ⟨pre, hmem, hp⟩
    rcases Bool.or_eq_true _ _ |>.mp hp with h | h
    · exact ⟨pre, hmem, Or.inl (by simpa using h)⟩
    · exact ⟨pre, hmem, Or.inr ((startsWithStr_iff t (pre ++ sep)).mp h)⟩
  · rintro ⟨pre, hmem, h | h⟩
    · exact ⟨pre, hmem, by simp [h]⟩
    · refine ⟨pre, hmem, Bool.or_eq_true _ _ |>.mpr (Or.inr ?_)⟩
      exact (startsWithStr_iff t (pre ++ sep)).mpr h

theorem mem_dictSet {β : Type} (m : List (String × β)) (k : String) (v : β)
    (z : String × β) (h : z ∈ dictSet m k v) : z = (k, v) ∨ z ∈ m := by
  unfold dictSet at h
  by_cases ha : m.any (fun e => e.1 == k) = true
  · rw [if_pos ha] at h
    rcases List.mem_map.mp h with ⟨e, hem, he⟩
    by_cases hk : (e.1 == k) = true
    · rw [if_pos hk] at he
      exact Or.inl he.symm
    · rw [if_neg hk] at he
      exact Or.inr (he ▸ hem)
  · rw [if_neg ha] at h
    rcases List.mem_append.mp h with h | h
    · exact Or.inr h
    · exact Or.inl (by simpa using h)

theorem key_mem_dictSet {β : Type} (m : List (String × β)) (k : String) (v : β)
    (k0 : String) (h : ∃ w, (k0, w) ∈ m) : ∃ w, (k0, w) ∈ dictSet m k v := by
  unfold dictSet
  by_cases ha : m.any (fun e => e.1 == k) = true
  · rw [if_pos ha]
    rcases h with ⟨w, hw⟩
    by_cases hk : k0 = k
    · subst hk
      exact ⟨v, List.mem_map.mpr ⟨(k0, w), hw, by simp⟩⟩
    · refine ⟨w, List.mem_map.mpr ⟨(k0, w), hw, ?_⟩⟩
      simp [beq_eq_false_iff_ne.mpr hk]
  · rw [if_neg ha]
    rcases h with ⟨w, hw⟩
    exact ⟨w, List.mem_append.mpr (Or.inl hw)⟩

theorem key_self_dictSet {β : Type} (m : List (String × β)) (k : String) (v : β) :
    ∃ w, (k, w) ∈ dictSet m k v := by
  unfold dictSet
  by_cases ha : m.any (fun e => e.1 == k) = true
  · rw [if_pos ha]
    rcases List.any_eq_true.mp ha with ⟨e, hem, he⟩
    exact ⟨v, List.mem_map.mpr ⟨e, hem, by rw [if_pos he]⟩⟩
  · rw [if_neg ha]
    exact ⟨v, List.mem_append.mpr (Or.inr (by simp))⟩

/-- Every pair accumulated by the `list_children` fold comes from a matching
entry (soundness of the prefix filter). -/
theorem mem_childResults (normalized : List String) (recursive : Bool)
    (entries : List (String × String × Bool)) (p : String) (v : String × Bool)
    (h : (p, v) ∈ childResults normalized recursive entries) :
    (p, v.1, v.2) ∈ entries ∧ ∃ pre ∈ normalized, specPrefixMatch pre p := by
  unfold childResults at h
  suffices H : ∀ (es : List (String × String × Bool)) (m : List (String × (String × Bool))),
      (p, v) ∈ es.foldl (fun m e =>
        match normalized.find? (fun pre => e.1 == pre || startsWithStr e.1 (pre ++ sep)) with
        | some _ => if recursive then dictSet m e.1 (e.2.1, e.2.2) else dictSet m e.1 (e.2.1, e.2.2)
        | none => m) m →
      (p, v) ∈ m ∨ ((p, v.1, v.2) ∈ es ∧ ∃ pre ∈ normalized, specPrefixMatch pre p) by
    rcases H entries [] h with h | h
    · simp at h
    · exact h
  intro es
  induction es with
  | nil => intro m hm; exact Or.inl hm
  | cons x xs ih =>
    intro m hm
    rw [List.foldl_cons] at hm
    rcases ih _ hm with hstep | hrest
    · rcases hfind : normalized.find?
          (fun pre => x.1 == pre || startsWithStr x.1 (pre ++ sep)) with _ | pre
      · rw [hfind] at hstep
        exact Or.inl hstep
      · rw [hfind] at hstep
        have hstep' : (p, v) ∈ dictSet m x.1 (x.2.1, x.2.2) := by
          cases recursive <;> simpa using hstep
        rcases mem_dictSet _ _ _ _ hstep' with he | he
        · right
          have hp : p = x.1 := congrArg Prod.fst he
          have hv : v = (x.2.1, x.2.2) := congrArg Prod.snd he
          constructor
          · rw [hp, hv]
            simp
          · have hpred := List.find?_some hfind
            have hmem := List.mem_of_find?_eq_some hfind
            refine ⟨pre, hmem, ?_⟩
            rcases Bool.or_eq_true _ _ |>.mp hpred with hcase | hcase
            · exact Or.inl (hp.trans (eq_of_beq hcase))
            · rcases (startsWithStr_iff x.1 (pre ++ sep)).mp hcase with ⟨rest, hrest⟩
              refine Or.inr ⟨rest, ?_⟩
              rw [hp]
              exact hrest
        · exact Or.inl he
    · right
      exact ⟨List.mem_cons_of_mem _ hrest.1, hrest.2⟩

/-- Completeness: every entry matching some normalized prefix leaves its path
in the `list_children` fold result. -/
theorem childResults_complete (normalized : List String) (recursive : Bool)
    (entries : List (String × String × Bool)) (p sha : String) (del : Bool)
    (hmem : (p, sha, del) ∈ entries)
    (hmatch : ∃ pre ∈ normalized, (p == pre || startsWithStr p (pre ++ sep)) = true) :
    ∃ v, (p, v) ∈ childResults normalized recursive entries := by
  unfold childResults
  suffices H : ∀ (es : List (String × String × Bool)) (m : List (String × (String × Bool))),
      ((∃ w, (p, w) ∈ m) ∨ (p, sha, del) ∈ es) →
      ∃ w, (p, w) ∈ es.foldl (fun m e =>
        match normalized.find? (fun pre => e.1 == pre || startsWithStr e.1 (pre ++ sep)) with
        | some _ => if recursive then dictSet m e.1 (e.2.1, e.2.2) else dictSet m e.1 (e.2.1, e.2.2)
        | none => m) m from
    H entries [] (Or.inr hmem)
  intro es
  induction es with
  | nil =>
    intro m hm
    rcases hm with hm | hm
    · exact hm
    · simp at hm
  | cons x xs ih =>
    intro m hm
    rw [List.foldl_cons]
    rcases hfind : normalized.find?
        (fun pre => x.1 == pre || startsWithStr x.1 (pre ++ sep)) with _ | pre1
    · rcases hm with ⟨w, hw⟩ | hm
      · exact ih m (Or.inl ⟨w, hw⟩)
      · rcases List.mem_cons.mp hm with hx | hx
        · exfalso
          have hp1 : x.1 = p := by rw [← hx]
          rcases hmatch with ⟨pre0, hpre0, hpred0⟩
          have : (normalized.find?
              (fun pre => x.1 == pre || startsWithStr x.1 (pre ++ sep))).isSome := by
            rw [List.find?_isSome]
            exact ⟨pre0, hpre0, by rw [hp1]; exact hpred0⟩
          rw [hfind] at this
          simp at this
        · exact ih _ (Or.inr hx)
    · rcases hm with ⟨w, hw⟩ | hm
      · apply ih
        left
        have := key_mem_dictSet m x.1 (x.2.1, x.2.2) p ⟨w, hw⟩
        cases recursive <;> simpa using this
      · rcases List.mem_cons.mp hm with hx | hx
        · apply ih
          left
          have hp1 : x.1 = p := by rw [← hx]
          have hkey := key_self_dictSet m x.1 (x.2.1, x.2.2)
          rw [← hp1]
          cases recursive <;> simpa using hkey
        · exact ih _ (Or.inr hx)

theorem normalizePrefixes_nil (pres : List String) (h : ∀ p ∈ pres, isabs p = true) :
    normalizePrefixes pres = [] := by
  induction pres with
  | nil => rfl
  | cons x xs ih =>
    have hx := h x (List.mem_cons_self x xs)
    simp only [normalizePrefixes, List.filterMap_cons, hx, if_true]
    exact ih (fun p hp => h p (List.mem_cons_of_mem _ hp))

/-- **C4**: every prefix-matching operation — extraction's
`_matches_prefix`, the `list_children` filter, recursive `delete_from_db`
selection — matches a row exactly when the logical path equals the prefix
or starts with `prefix + separator`; non-recursive deletion selects exact
path matches only (which also satisfies the boundary); and the prefix
`"ab"` does not match the path `"abc/x"`. -/
theorem prefixMatchingBoundary :
    (∀ t pres, matchesPrefix t pres = true ↔ ∃ pre ∈ pres, specPrefixMatch pre t)
    ∧ (∀ cands normalized r, r ∈ deleteTargets cands normalized true ↔
        r ∈ cands ∧ ∃ pre ∈ normalized, specPrefixMatch pre (rowPath r))
    ∧ (∀ cands normalized r, r ∈ deleteTargets cands normalized false →
        ∃ pre ∈ normalized, rowPath r = pre)
    ∧ (∀ normalized recursive entries p v,
        (p, v) ∈ childResults normalized recursive entries →
        ∃ pre ∈ normalized, specPrefixMatch pre p)
    ∧ matchesPrefix "abc/x" ["ab"] = false := by
  refine ⟨matchesPrefix_iff, ?_, ?_, ?_, by rfl⟩
  · intro cands normalized r
    unfold deleteTargets
    rw [List.mem_filter]
    constructor
    · rintro ⟨hr, hm⟩
      refine ⟨hr, (matchesPrefix_iff (rowPath r) normalized).mp ?_⟩
      simpa [matchesPrefix] using hm
    · rintro ⟨hr, hm⟩
      refine ⟨hr, ?_⟩
      have := (matchesPrefix_iff (rowPath r) normalized).mpr hm
      simpa [matchesPrefix] using this
  · intro cands normalized r h
    unfold deleteTargets at h
    rw [List.mem_filter] at h
    have h2 : rowPath r ∈ normalized := by simpa using h.2
    exact ⟨rowPath r, h2, rfl⟩
  · intro normalized recursive entries p v h
    exact (mem_childResults normalized recursive entries p v h).2

/-- Witness: the boundary behavior of prefix matching at concrete inputs. -/
theorem prefixMatchingBoundaryWitness :
    matchesPrefix "ab/x" ["ab"] = true ∧ matchesPrefix "abc/x" ["ab"] = false := by
  constructor
  · exact (prefixMatchingBoundary.1 "ab/x" ["ab"]).mpr
      ⟨"ab", by simp, Or.inr ⟨['x'], by rfl⟩⟩
  · exact prefixMatchingBoundary.2.2.2.2

/-- **C10**: a delete-by-path whose prefixes are all absolute marks zero
rows and leaves the table unchanged, and a list-by-path with only absolute
prefixes returns no entries, even when rows exist. -/
theorem absolutePrefixesDropped (table : List DbRow) (pres : List String)
    (recursive showDeleted : Bool) (hne : pres ≠ [])
    (habs : ∀ p ∈ pres, isabs p = true) :
    deleteFromDb table pres recursive showDeleted = (table, 0) ∧
    listChildren table pres recursive showDeleted = [] := by
  have hn := normalizePrefixes_nil pres habs
  have hpe : pres.isEmpty = false := by
    cases pres with
    | nil => exact absurd rfl hne
    | cons a as => rfl
  constructor
  · simp [deleteFromDb, hn]
  · have h2 : childResults [] recursive (listDbEntries table showDeleted) = [] := by
      unfold childResults
      apply foldl_keep
      intro m a _
      rfl
    simp [listChildren, hpe, hn, h2, isort]

/-- Witness for `absolutePrefixesDropped` at a concrete one-row table. -/
theorem absolutePrefixesDroppedWitness :
    deleteFromDb [⟨"h", "/r", "a", "", "c", false⟩] ["/abs"] false false
        = ([⟨"h", "/r", "a", "", "c", false⟩], 0) ∧
    listChildren [⟨"h", "/r", "a", "", "c", false⟩] ["/abs"] false false = [] := by
  apply absolutePrefixesDropped
  · simp
  · intro p hp
    simp only [List.mem_singleton] at hp
    subst hp
    rfl

/-- **C6 counterexample**: with the recursive flag off, `list_children`
still returns the strict descendant `a/b/c.txt` of the prefix `a`, so
list-by-path is not exact-match by default. -/
theorem lspathNonrecursiveCounterexample :
    listChildren [⟨"h", "r", "a", "b", "c.txt", false⟩] ["a"] false false
      = [("a/b/c.txt", "h", false)] ∧ ("a/b/c.txt" : String) ≠ "a" :=
  ⟨by rfl, by decide⟩

/-- **C6 amended**: `list_children` ignores the recursive flag entirely
(`main` rejects `--recursive` together with `--lspath`): with prefixes it
always returns the rows whose logical path equals a prefix or starts with
the prefix followed by the separator — descendants included — as
`(path, digest, deleted)` triples sorted by path. -/
theorem lspathAlwaysRecursive :
    (∀ rows pres sd, listChildren rows pres true sd = listChildren rows pres false sd)
    ∧ (∀ rows pres sd p sha del, pres ≠ [] →
        (p, sha, del) ∈ listChildren rows pres false sd →
        (p, sha, del) ∈ listDbEntries rows sd
          ∧ ∃ pre ∈ normalizePrefixes pres, specPrefixMatch pre p)
    ∧ (∀ rows pres sd p sha del, (p, sha, del) ∈ listDbEntries rows sd →
        (∃ pre ∈ normalizePrefixes pres,
          (p == pre || startsWithStr p (pre ++ sep)) = true) →
        ∃ v, (p, v) ∈ (childResults (normalizePrefixes pres) false
          (listDbEntries rows sd)))
    ∧ (∀ rows pres recursive sd, (listChildren rows pres recursive sd).Pairwise
        (fun a b => strLt a.1 b.1 = true ∨ a.1 = b.1)) := by
  refine ⟨?_, ?_, ?_, ?_⟩
  · intro rows pres sd
    rfl
  · intro rows pres sd p sha del hne hmem
    unfold listChildren at hmem
    rw [if_neg (by simpa using hne)] at hmem
    rw [mem_isort] at hmem
    rcases List.mem_map.mp hmem with ⟨⟨k, v⟩, hkv, he⟩
    have hk : k = p := congrArg Prod.fst he
    have hv1 : v.1 = sha := congrArg (fun z => z.2.1) he
    have hv2 : v.2 = del := congrArg (fun z => z.2.2) he
    subst hk
    have := mem_childResults _ _ _ _ _ hkv
    rw [hv1, hv2] at this
    exact this
  · intro rows pres sd p sha del hmem hmatch
    exact childResults_complete _ false _ p sha del hmem hmatch
  · intro rows pres recursive sd
    have hsorted : (listChildren rows pres recursive sd).Pairwise
        (fun a b => entryLe a b = true) := by
      unfold listChildren
      by_cases h : pres.isEmpty = true
      · rw [if_pos h]
        exact pairwise_isort entryLe entryLe_total entryLe_trans _
      · rw [if_neg h]
        exact pairwise_isort entryLe entryLe_total entryLe_trans _
    exact hsorted.imp (fun h => entryLe_path _ _ h)

/-- Witness for `lspathAlwaysRecursive` at a concrete one-row catalog. -/
theorem lspathAlwaysRecursiveWitness :
    (("a/b/c.txt", "h", false) ∈ listDbEntries [⟨"h", "r", "a", "b", "c.txt", false⟩] false
      ∧ ∃ pre ∈ normalizePrefixes ["a"], specPrefixMatch pre "a/b/c.txt")
    ∧ (listChildren [⟨"h", "r", "a", "b", "c.txt", false⟩] ["a"] true false).Pairwise
        (fun a b => strLt a.1 b.1 = true ∨ a.1 = b.1) := by
  constructor
  · exact lspathAlwaysRecursive.2.1 [⟨"h", "r", "a", "b", "c.txt", false⟩] ["a"] false
      "a/b/c.txt" "h" false (by simp) (by decide)
  · exact lspathAlwaysRecursive.2.2.2 [⟨"h", "r", "a", "b", "c.txt", false⟩] ["a"] true false

/-! ## Characterizing the `--mindup` dictionaries by counts (C5) -/

theorem any_congr' {α : Type} (l : List α) (p q : α → Bool)
    (h : ∀ a ∈ l, p a = q a) : l.any p = l.any q := by
  induction l with
  | nil => rfl
  | cons x xs ih =>
    simp only [List.any_cons, h x (List.mem_cons_self x xs)]
    rw [ih (fun a ha => h a (List.mem_cons_of_mem _ ha))]

theorem groupedBySha_go (es : List (String × String × Bool)) :
    ∀ (done : List (String × String × Bool)) (m : List (String × List String)),
    (∀ kl ∈ m, kl.2.length = done.countP (fun e => e.2.1 == kl.1)) →
    (∀ k, (m.any (fun e => e.1 == k)) = true
        ↔ 0 < done.countP (fun e => e.2.1 == k)) →
    (∀ kl ∈ es.foldl (fun m e => setdefaultAppend m e.2.1 e.1) m,
        kl.2.length = (done ++ es).countP (fun e => e.2.1 == kl.1))
    ∧ (∀ k, ((es.foldl (fun m e => setdefaultAppend m e.2.1 e.1) m).any
          (fun e => e.1 == k)) = true
        ↔ 0 < (done ++ es).countP (fun e => e.2.1 == k)) := by
  induction es with
  | nil =>
    intro done m hval hpres
    rw [List.foldl_nil, List.append_nil]
    exact ⟨hval, hpres⟩
  | cons x xs ih =>
    intro done m hval hpres
    rw [List.foldl_cons]
    have hv : ∀ kl ∈ setdefaultAppend m x.2.1 x.1,
        kl.2.length = (done ++ [x]).countP (fun e => e.2.1 == kl.1) := by
      intro kl hkl
      unfold setdefaultAppend at hkl
      by_cases ha : m.any (fun e => e.1 == x.2.1) = true
      · rw [if_pos ha] at hkl
        rcases List.mem_map.mp hkl with ⟨e, hem, he⟩
        by_cases hk : (e.1 == x.2.1) = true
        · rw [if_pos hk] at he
          have he1 : e.1 = x.2.1 := eq_of_beq hk
          subst he
          rw [List.countP_append]
          simp only [List.length_append, List.length_singleton, hval e hem,
            List.countP_cons, List.countP_nil]
          rw [if_pos (by simpa using he1.symm)]
        · rw [if_neg hk] at he
          subst he
          rw [List.countP_append]
          have hx1 : (x.2.1 == e.1) = false := by
            apply beq_eq_false_iff_ne.mpr
            intro h
            exact hk (by simpa using h.symm)
          simp [hval e hem, List.countP_cons, hx1]
      · rw [if_neg ha] at hkl
        rcases List.mem_append.mp hkl with hkl | hkl
        · rw [List.countP_append]
          have hne : (x.2.1 == kl.1) = false := by
            apply beq_eq_false_iff_ne.mpr
            intro h
            have : m.any (fun e => e.1 == x.2.1) = true :=
              List.any_eq_true.mpr ⟨kl, hkl, by simpa using h.symm⟩
            exact ha this
          simp [hval kl hkl, List.countP_cons, hne]
        · have hkl' : kl = (x.2.1, [x.1]) := by simpa using hkl
          subst hkl'
          rw [List.countP_append]
          have h0 : done.countP (fun e => e.2.1 == x.2.1) = 0 := by
            by_contra hc
            exact ha ((hpres x.2.1).mpr (Nat.pos_of_ne_zero hc))
          simp [h0]
    have hp : ∀ k, ((setdefaultAppend m x.2.1 x.1).any (fun e => e.1 == k)) = true
        ↔ 0 < (done ++ [x]).countP (fun e => e.2.1 == k) := by
      intro k
      rw [List.countP_append]
      have hsingle : [x].countP (fun e => e.2.1 == k) = if (x.2.1 == k) = true then 1 else 0 := by
        simp [List.countP_cons]
      unfold setdefaultAppend
      by_cases ha : m.any (fun e => e.1 == x.2.1) = true
      · rw [if_pos ha]
        have hany : ((m.map (fun e => if e.1 == x.2.1 then (e.1, e.2 ++ [x.1]) else e)).any
            (fun e => e.1 == k)) = (m.any (fun e => e.1 == k)) := by
          rw [List.any_map]
          apply any_congr'
          intro e _
          by_cases hk : (e.1 == x.2.1) = true
          · simp [Function.comp, hk]
          · simp [Function.comp, hk]
        rw [hany, hsingle]
        by_cases hxk : (x.2.1 == k) = true
        · rw [if_pos hxk]
          have hkx : k = x.2.1 := (eq_of_beq hxk).symm
          subst hkx
          constructor
          · intro _
            omega
          · intro _
            exact ha
        · rw [if_neg hxk]
          simpa using hpres k
      · rw [if_neg ha, hsingle]
        rw [List.any_append]
        by_cases hxk : (x.2.1 == k) = true
        · rw [if_pos hxk]
          constructor
          · intro _
            omega
          · intro _
            apply Bool.or_eq_true _ _ |>.mpr
            right
            simpa using hxk
        · rw [if_neg hxk]
          constructor
          · intro h
            rcases Bool.or_eq_true _ _ |>.mp h with h | h
            · simpa using (hpres k).mp h
            · exact absurd (by simpa using h) (fun hh => by simp [hh] at hxk)
          · intro h
            apply Bool.or_eq_true _ _ |>.mpr
            left
            exact (hpres k).mpr (by simpa using h)
    have := ih (done ++ [x]) (setdefaultAppend m x.2.1 x.1) hv hp
    rwa [List.append_assoc, List.singleton_append] at this

theorem grouped_spec (entries : List (String × String × Bool)) :
    (∀ kl ∈ groupedBySha entries, kl.2.length = entries.countP (fun e => e.2.1 == kl.1))
    ∧ (∀ k, ((groupedBySha entries).any (fun e => e.1 == k)) = true
        ↔ 0 < entries.countP (fun e => e.2.1 == k)) := by
  have := groupedBySha_go entries [] [] (by simp) (by simp)
  simpa [groupedBySha] using this

theorem mem_dupShasums (entries : List (String × String × Bool)) (sha : String) :
    sha ∈ dupShasums entries ↔ 1 < entries.countP (fun e => e.2.1 == sha) := by
  unfold dupShasums
  rw [List.mem_filterMap]
  constructor
  · rintro ⟨kl, hkl, hif⟩
    by_cases h : 1 < kl.2.length
    · rw [if_pos h] at hif
      injection hif with h'
      subst h'
      rw [← (grouped_spec entries).1 kl hkl]
      exact h
    · rw [if_neg h] at hif
      cases hif
  · intro h
    have h0 : 0 < entries.countP (fun e => e.2.1 == sha) := by omega
    have := ((grouped_spec entries).2 sha).mpr h0
    rcases List.any_eq_true.mp this with ⟨kl, hkl, hk⟩
    have hke : kl.1 = sha := eq_of_beq hk
    refine ⟨kl, hkl, ?_⟩
    have hlen : 1 < kl.2.length := by
      rw [(grouped_spec entries).1 kl hkl, hke]
      exact h
    rw [if_pos hlen, hke]

theorem counterFold_go (P : (String × String × Bool) → Bool)
    (keyf : (String × String × Bool) → String) (es : List (String × String × Bool)) :
    ∀ (done : List (String × String × Bool)) (m : List (String × Nat)),
    (∀ kc ∈ m, kc.2 = done.countP (fun e => P e && (keyf e == kc.1))) →
    (∀ k, (m.any (fun e => e.1 == k)) = true
        ↔ 0 < done.countP (fun e => P e && (keyf e == k))) →
    (∀ kc ∈ es.foldl (fun m e => if P e then counterInc m (keyf e) else m) m,
        kc.2 = (done ++ es).countP (fun e => P e && (keyf e == kc.1)))
    ∧ (∀ k, ((es.foldl (fun m e => if P e then counterInc m (keyf e) else m) m).any
          (fun e => e.1 == k)) = true
        ↔ 0 < (done ++ es).countP (fun e => P e && (keyf e == k))) := by
  induction es with
  | nil =>
    intro done m hval hpres
    rw [List.foldl_nil, List.append_nil]
    exact ⟨hval, hpres⟩
  | cons x xs ih =>
    intro done m hval hpres
    rw [List.foldl_cons]
    have hsingle : ∀ k, [x].countP (fun e => P e && (keyf e == k))
        = if (P x && (keyf x == k)) = true then 1 else 0 := by
      intro k
      simp [List.countP_cons]
    by_cases hPx : P x = true
    · rw [if_pos hPx]
      have hv : ∀ kc ∈ counterInc m (keyf x),
          kc.2 = (done ++ [x]).countP (fun e => P e && (keyf e == kc.1)) := by
        intro kc hkc
        unfold counterInc at hkc
        by_cases ha : m.any (fun e => e.1 == keyf x) = true
        · rw [if_pos ha] at hkc
          rcases List.mem_map.mp hkc with ⟨e, hem, he⟩
          by_cases hk : (e.1 == keyf x) = true
          · rw [if_pos hk] at he
            have he1 : e.1 = keyf x := eq_of_beq hk
            subst he
            rw [List.countP_append, hsingle]
            rw [if_pos (by simp [hPx, he1.symm])]
            simp [hval e hem]
          · rw [if_neg hk] at he
            subst he
            rw [List.countP_append, hsingle]
            rw [if_neg (by
              intro hcon
              rcases Bool.and_eq_true _ _ |>.mp hcon with ⟨_, h2⟩
              exact hk (by simpa using (eq_of_beq h2).symm))]
            simp [hval e hem]
        · rw [if_neg ha] at hkc
          rcases List.mem_append.mp hkc with hkc | hkc
          · rw [List.countP_append, hsingle]
            rw [if_neg (by
              intro hcon
              rcases Bool.and_eq_true _ _ |>.mp hcon with ⟨_, h2⟩
              exact ha (List.any_eq_true.mpr ⟨kc, hkc, by simpa using (eq_of_beq h2).symm⟩))]
            simp [hval kc hkc]
          · have hkc' : kc = (keyf x, 1) := by simpa using hkc
            subst hkc'
            rw [List.countP_append, hsingle]
            have h0 : done.countP (fun e => P e && (keyf e == keyf x)) = 0 := by
              by_contra hc
              exact ha ((hpres (keyf x)).mpr (Nat.pos_of_ne_zero hc))
            simp [h0, hPx]
      have hp : ∀ k, ((counterInc m (keyf x)).any (fun e => e.1 == k)) = true
          ↔ 0 < (done ++ [x]).countP (fun e => P e && (keyf e == k)) := by
        intro k
        rw [List.countP_append, hsingle]
        unfold counterInc
        by_cases ha : m.any (fun e => e.1 == keyf x) = true
        · rw [if_pos ha]
          have hany : ((m.map (fun e => if e.1 == keyf x then (e.1, e.2 + 1) else e)).any
              (fun e => e.1 == k)) = (m.any (fun e => e.1 == k)) := by
            rw [List.any_map]
            apply any_congr'
            intro e _
            by_cases hk : (e.1 == keyf x) = true
            · simp [Function.comp, hk]
            · simp [Function.comp, hk]
          rw [hany]
          by_cases hxk : (keyf x == k) = true
          · rw [if_pos (by simp [hPx, hxk])]
            have hkx : k = keyf x := (eq_of_beq hxk).symm
            subst hkx
            constructor
            · intro _
              omega
            · intro _
              exact ha
          · rw [if_neg (by simp [hxk])]
            simpa using hpres k
        · rw [if_neg ha, List.any_append]
          by_cases hxk : (keyf x == k) = true
          · rw [if_pos (by simp [hPx, hxk])]
            constructor
            · intro _
              omega
            · intro _
              apply Bool.or_eq_true _ _ |>.mpr
              right
              simpa using hxk
          · rw [if_neg (by simp [hxk])]
            constructor
            · intro h
              rcases Bool.or_eq_true _ _ |>.mp h with h | h
              · simpa using (hpres k).mp h
              · exact absurd (by simpa using h) (fun hh => by simp [hh] at hxk)
            · intro h
              apply Bool.or_eq_true _ _ |>.mpr
              left
              exact (hpres k).mpr (by simpa using h)
      have := ih (done ++ [x]) (counterInc m (keyf x)) hv hp
      rwa [List.append_assoc, List.singleton_append] at this
    · rw [if_neg hPx]
      have hPx' : P x = false := by simpa using hPx
      have habsorb : ∀ k, (done ++ [x]).countP (fun e => P e && (keyf e == k))
          = done.countP (fun e => P e && (keyf e == k)) := by
        intro k
        rw [List.countP_append, hsingle]
        rw [if_neg (by simp [hPx'])]
        omega
      have := ih (done ++ [x]) m
        (fun kc hkc => (habsorb kc.1).symm ▸ hval kc hkc)
        (fun k => (habsorb k).symm ▸ hpres k)
      rwa [List.append_assoc, List.singleton_append] at this

theorem countP_congr' {α : Type} (l : List α) (p q : α → Bool)
    (h : ∀ a ∈ l, p a = q a) : l.countP p = l.countP q := by
  induction l with
  | nil => rfl
  | cons x xs ih =>
    simp only [List.countP_cons, h x (List.mem_cons_self x xs)]
    rw [ih (fun a ha => h a (List.mem_cons_of_mem _ ha))]

theorem dirCounts_spec (entries : List (String × String × Bool)) :
    (∀ kc ∈ dirCounts entries, kc.2 = entries.countP
        (fun e => (dupShasums entries).contains e.2.1 && (dirnameStr e.1 == kc.1)))
    ∧ (∀ k, ((dirCounts entries).any (fun e => e.1 == k)) = true
        ↔ 0 < entries.countP
            (fun e => (dupShasums entries).contains e.2.1 && (dirnameStr e.1 == k))) := by
  unfold dirCounts
  have h := counterFold_go (fun e => (dupShasums entries).contains e.2.1)
    (fun e => dirnameStr e.1) entries [] []
    (fun kc hkc => absurd hkc (List.not_mem_nil kc))
    (fun k => by simp)
  rwa [List.nil_append] at h

theorem mem_allowedDirs (entries : List (String × String × Bool)) (mindup : Nat)
    (d : String) :
    d ∈ allowedDirs entries mindup ↔
      (0 < entries.countP
          (fun e => (dupShasums entries).contains e.2.1 && (dirnameStr e.1 == d))
        ∧ mindup ≤ entries.countP
          (fun e => (dupShasums entries).contains e.2.1 && (dirnameStr e.1 == d))) := by
  unfold allowedDirs
  rw [List.mem_filterMap]
  constructor
  · rintro ⟨kc, hkc, hif⟩
    by_cases h : mindup ≤ kc.2
    · rw [if_pos h] at hif
      injection hif with h'
      subst h'
      have hv := (dirCounts_spec entries).1 kc hkc
      constructor
      · apply ((dirCounts_spec entries).2 kc.1).mp
        exact List.any_eq_true.mpr ⟨kc, hkc, by simp⟩
      · rw [← hv]
        exact h
    · rw [if_neg h] at hif
      cases hif
  · rintro ⟨h0, h⟩
    have := ((dirCounts_spec entries).2 d).mpr h0
    rcases List.any_eq_true.mp this with ⟨kc, hkc, hk⟩
    have hke : kc.1 = d := eq_of_beq hk
    refine ⟨kc, hkc, ?_⟩
    have hv : mindup ≤ kc.2 := by
      rw [(dirCounts_spec entries).1 kc hkc, hke]
      exact h
    rw [if_pos hv, hke]

/-- **C5 counterexample**: with `mindup = 2` the filter keeps
`("A/c", "d3")` even though digest `d3` has a single live occurrence
among the listed entries, so the returned entries are not "exactly those
whose digest has at least N live occurrences". -/
theorem mindupCounterexample :
    mindupFilter [("A/a","d1",false),("A/b","d1",false),("A/c","d3",false)] 2
      = [("A/a","d1",false),("A/b","d1",false),("A/c","d3",false)]
    ∧ ([("A/a","d1",false),("A/b","d1",false),("A/c","d3",false)].countP
        (fun e => e.2.1 == "d3")) = 1 :=
  ⟨by rfl, by rfl⟩

/-- **C5 amended**: for minimum-duplicate-count `N > 1` the filter keeps
exactly the entries lying in a directory that contains at least `N` listed
entries whose digest occurs **more than once** among the listed entries
(the digest-level threshold is the constant 2, not `N`, and entries with
unique digests in a qualifying directory are kept as well); the concrete
scenario — three paths sharing one digest, two in directory A, one in
directory B — still returns exactly the two paths in directory A. -/
theorem mindupCharacterization :
    (∀ entries mindup e, 1 < mindup →
      (e ∈ mindupFilter entries mindup ↔ e ∈ entries ∧
        mindup ≤ entries.countP (fun x =>
          decide (1 < entries.countP (fun y => y.2.1 == x.2.1))
            && (dirnameStr x.1 == dirnameStr e.1))))
    ∧ mindupFilter [("A/a","h",false),("A/b","h",false),("B/c","h",false)] 2
        = [("A/a","h",false),("A/b","h",false)] := by
  constructor
  · intro entries mindup e hm
    have hpt : ∀ x : String × String × Bool,
        ((dupShasums entries).contains x.2.1)
          = decide (1 < entries.countP (fun y => y.2.1 == x.2.1)) := by
      intro x
      by_cases h : 1 < entries.countP (fun y => y.2.1 == x.2.1)
      · rw [decide_eq_true h]
        have : x.2.1 ∈ dupShasums entries := (mem_dupShasums entries x.2.1).mpr h
        simpa using this
      · rw [decide_eq_false h]
        have : x.2.1 ∉ dupShasums entries := fun hc =>
          h ((mem_dupShasums entries x.2.1).mp hc)
        simpa using this
    have hcnt : ∀ d, entries.countP
          (fun x => (dupShasums entries).contains x.2.1 && (dirnameStr x.1 == d))
        = entries.countP (fun x =>
          decide (1 < entries.countP (fun y => y.2.1 == x.2.1))
            && (dirnameStr x.1 == d)) := by
      intro d
      apply countP_congr'
      intro x _
      rw [hpt x]
    by_cases hne : entries.isEmpty = true
    · have h0 : entries = [] := List.isEmpty_iff.mp hne
      subst h0
      simp [mindupFilter]
    · unfold mindupFilter
      have hcond : (decide (1 < mindup) && !entries.isEmpty) = true := by
        rw [decide_eq_true hm]
        simpa using hne
      rw [if_pos hcond, List.mem_filter]
      constructor
      · rintro ⟨hmem, hall⟩
        refine ⟨hmem, ?_⟩
        have := (mem_allowedDirs entries mindup (dirnameStr e.1)).mp (by simpa using hall)
        rw [← hcnt]
        exact this.2
      · rintro ⟨hmem, hle⟩
        refine ⟨hmem, ?_⟩
        have h0 : 0 < entries.countP
            (fun x => (dupShasums entries).contains x.2.1
              && (dirnameStr x.1 == dirnameStr e.1)) := by
          rw [hcnt]
          omega
        have := (mem_allowedDirs entries mindup (dirnameStr e.1)).mpr
          ⟨h0, by rw [hcnt]; exact hle⟩
        simpa using this
  · rfl

/-- Witness for `mindupCharacterization` at a concrete entry list. -/
theorem mindupCharacterizationWitness :
    ("A/a","h",false) ∈ mindupFilter
      [("A/a","h",false),("A/b","h",false),("B/c","h",false)] 2 :=
  (mindupCharacterization.1 [("A/a","h",false),("A/b","h",false),("B/c","h",false)]
      2 ("A/a","h",false) (by decide)).mpr ⟨by decide, by decide⟩

/-! ## Component path model of the filesystem layer

Absolute POSIX paths are lists of components; `os.path.abspath` of an
already-absolute path is `posixpath.normpath`, which at component level
drops `""` and `"."` and resolves `".."` against the root.  The filesystem
is a flat association list; directories are implicit.  Symlinks store
absolute target paths (ingestion always writes `os.path.abspath(dest)`),
and resolution follows chains with fuel `fs.length + 1`, so cycles resolve
to nothing (like `ELOOP` making `os.path.isfile` false). -/

/-- A path as its list of components (`/a/b` is `["a", "b"]`). -/
abbrev FsPath := List String

/-- `posixpath.normpath` on the components of an absolute path: drop `""`
and `"."`, pop on `".."` (at the root, `/..` collapses to `/`).  The
accumulator is kept reversed. -/
def normComps (p : FsPath) : FsPath :=
  (p.foldl (fun acc c =>
    if c == "" || c == "." then acc
    else if c == ".." then acc.tail
    else c :: acc) []).reverse

/-- A filesystem entry: a regular file with contents, or a symlink with an
absolute target. -/
inductive Entry where
  | file (content : List Nat)
  | symlink (target : FsPath)
deriving DecidableEq

/-- A flat filesystem: paths (absolute, componentwise) to entries. -/
abbrev FS := List (FsPath × Entry)

/-- Read the entry at a path (`lstat`-like: does not follow a final
symlink).  Lookup normalizes, mirroring kernel path resolution of the
textual path. -/
def lookupFS (fs : FS) (p : FsPath) : Option Entry :=
  (fs.find? (fun e => e.1 == normComps p)).map (fun e => e.2)

/-- Remove the entry at a path (`os.unlink`). -/
def removeFS (fs : FS) (p : FsPath) : FS :=
  fs.filter (fun q => !(q.1 == normComps p))

/-- Create or replace the entry at a path. -/
def setFS (fs : FS) (p : FsPath) (e : Entry) : FS :=
  (normComps p, e) :: removeFS fs p

/-- Follow symlink chains with fuel; returns the final `(path, entry)` when
it is a regular file or the chain ends at an existing entry. -/
def resolveFS (fs : FS) : Nat → FsPath → Option (FsPath × Entry)
  | 0, _ => none
  | fuel + 1, p =>
    match lookupFS fs p with
    | some (.file c) => some (normComps p, .file c)
    | some (.symlink t) => resolveFS fs fuel t
    | none => none

/-- `os.path.islink`. -/
def islinkF (fs : FS) (p : FsPath) : Bool :=
  match lookupFS fs p with
  | some (.symlink _) => true
  | _ => false

/-- `os.path.isfile` (follows symlinks). -/
def isfileF (fs : FS) (p : FsPath) : Bool :=
  match resolveFS fs (fs.length + 1) p with
  | some (_, .file _) => true
  | _ => false

/-- `os.path.exists` (follows symlinks; a dangling symlink does not exist). -/
def existsF (fs : FS) (p : FsPath) : Bool :=
  (resolveFS fs (fs.length + 1) p).isSome

/-- `open(path).read()` through symlinks. -/
def readFileF (fs : FS) (p : FsPath) : Option (List Nat) :=
  match resolveFS fs (fs.length + 1) p with
  | some (_, .file c) => some c
  | _ => none

/-- Longest common component prefix: `posixpath.commonpath` of two absolute
paths (which filters out `""` and `"."`; call sites always pass
`os.path.abspath` outputs, rendered here by `normComps`). -/
def commonComps : FsPath → FsPath → FsPath
  | a :: as, b :: bs => if a == b then a :: commonComps as bs else []
  | _, _ => []

/-- `is_under_dir(path, parent)`: `commonpath([path, parent]) == parent`. -/
def isUnderDir (p parent : FsPath) : Bool :=
  commonComps (normComps p) (normComps parent) == normComps parent

/-- `walk_files(root, shadir, skip_dotfiles)` on the flat filesystem: every
entry path under `root`, pruning everything under the store and, when
requested, every path with a dot-component below the root (`os.walk` prunes
dot directories and skips dot files; the root's own name is not checked). -/
def walkFiles (fs : FS) (root shadir : FsPath) (skipDotfiles : Bool) : List FsPath :=
  (fs.map (fun e => e.1)).filter (fun p =>
    isUnderDir p root && !(isUnderDir p shadir) &&
      (!skipDotfiles || ((normComps p).drop (normComps root).length).all
        (fun c => !(startsWithStr c "."))))

/-- `compute_digest(path)`: `None` for symlinks and non-regular files, else
`(digest, size)`.  `hash` abstracts `sha256_file`; sizes are byte counts. -/
def computeDigest (hash : List Nat → String) (fs : FS) (p : FsPath) :
    Option (String × Nat) :=
  if islinkF fs p || !(isfileF fs p) then none
  else
    match lookupFS fs p with
    | some (.file c) => some (hash c, c.length)
    | _ => none

/-- `ensure_store_path`: `<shadir>/<digest[:2]>/<digest>` (the `makedirs`
side effect is invisible in a flat filesystem of implicit directories). -/
def ensureStorePath (shadir : FsPath) (digest : String) : FsPath :=
  shadir ++ [digest.take 2, digest]

/-- `store_digest(path, digest, shadir)`: `None` for symlinks/non-files,
`AssertionError` when the source is its own destination, otherwise move (or
discard when the blob exists) and leave an absolute symlink behind. -/
def storeDigest (fs : FS) (p : FsPath) (digest : String) (shadir : FsPath) :
    Except String (Option (FS × FsPath × Bool)) :=
  if islinkF fs p || !(isfileF fs p) then .ok none
  else
    let dest := ensureStorePath shadir digest
    let existedAlready := existsF fs dest
    if normComps p == normComps dest then .error "source equals destination"
    else
      let content := match lookupFS fs p with
        | some (.file c) => c
        | _ => []
      let fs1 := if existedAlready then removeFS fs p
                 else setFS (removeFS fs p) dest (.file content)
      .ok (some (setFS fs1 p (.symlink (normComps dest)), dest, existedAlready))

/-! ## Catalog rows (component model) -/

structure Row where
  shasum : String
  root : FsPath
  rootRel : FsPath
  dirpath : FsPath
  filename : String
  deleted : Bool
deriving DecidableEq

abbrev Catalog := List Row

/-- The unique index `(shasum, root_rel, dirpath, filename)`. -/
def sameKey (a b : Row) : Bool :=
  a.shasum == b.shasum && a.rootRel == b.rootRel
    && a.dirpath == b.dirpath && a.filename == b.filename

/-- `INSERT OR IGNORE`: skip when a row with the same unique key exists. -/
def insertOrIgnore (cat : Catalog) (r : Row) : Catalog :=
  if cat.any (sameKey r) then cat else cat ++ [r]

/-- `UPDATE stored_files SET deleted = 0 WHERE <unique key matches>`. -/
def clearDeleted (cat : Catalog) (r : Row) : Catalog :=
  cat.map (fun q => if sameKey r q then { q with deleted := false } else q)

/-- `_record_stored_file`: insert-if-absent then unconditionally clear the
deleted flag for that key — the upsert-active sequence. -/
def recordStoredFile (cat : Catalog) (digest : String) (absRoot rootRel relDir : FsPath)
    (filename : String) : Catalog :=
  let row : Row := ⟨digest, absRoot, rootRel, relDir, filename, false⟩
  clearDeleted (insertOrIgnore cat row) row

/-- Rows with the same unique key as `r`. -/
def countKey (cat : Catalog) (r : Row) : Nat := cat.countP (fun q => sameKey r q)

/-- `posixpath.relpath(target, start)` at component level (the Python
implementation normalizes both arguments with `abspath`). -/
def relpathC (target start : FsPath) : FsPath :=
  let t := normComps target
  let s := normComps start
  let k := (commonComps t s).length
  let res := List.replicate (s.length - k) ".." ++ t.drop k
  if res.isEmpty then ["."] else res

/-! ## Ingestion (`handle_store`) -/

structure StoreState where
  fs : FS
  cat : Catalog
  storedBytes : Nat
  skippedBytes : Nat
deriving DecidableEq

/-- One iteration of the `handle_store` loop: hash, store, record; the
self-move guard aborts the whole operation (uncaught `AssertionError`). -/
def storeStep (hash : List Nat → String) (shadir absRoot rootRel : FsPath)
    (st : StoreState) (p : FsPath) : Except String StoreState :=
  match computeDigest hash st.fs p with
  | none => .ok st
  | some (digest, size) =>
    match storeDigest st.fs p digest shadir with
    | .error e => .error e
    | .ok none => .ok st
    | .ok (some (fs1, _dest, existedAlready)) =>
      let relDir := relpathC (normComps p).dropLast absRoot
      let filename := (normComps p).getLastD ""
      let cat1 := recordStoredFile st.cat digest absRoot rootRel relDir filename
      .ok { fs := fs1, cat := cat1,
            storedBytes := st.storedBytes + (if existedAlready then 0 else size),
            skippedBytes := st.skippedBytes + (if existedAlready then size else 0) }

/-- The sequential store loop over a list of walked paths. -/
def runStore (hash : List Nat → String) (shadir absRoot rootRel : FsPath)
    (st : StoreState) : List FsPath → Except String StoreState
  | [] => .ok st
  | p :: ps =>
    match storeStep hash shadir absRoot rootRel st p with
    | .error e => .error e
    | .ok st1 => runStore hash shadir absRoot rootRel st1 ps

/-- `handle_store(conn, root, shadir, skip_dotfiles)`: the single-file
branch when `os.path.isfile(root)` (with `rel_dir = ""` and
`filename = basename(root)`), else the walking branch.
`abs_root = os.path.abspath(root)` is `normComps root` here. -/
def handleStore (hash : List Nat → String) (fs : FS) (cat : Catalog)
    (root shadir cwd : FsPath) (skipDotfiles : Bool) : Except String StoreState :=
  if isfileF fs (normComps root) then
    match computeDigest hash fs (normComps root) with
    | none => .ok ⟨fs, cat, 0, 0⟩
    | some (digest, size) =>
      match storeDigest fs (normComps root) digest shadir with
      | .error e => .error e
      | .ok none => .ok ⟨fs, cat, 0, 0⟩
      | .ok (some (fs1, _dest, existedAlready)) =>
        .ok ⟨fs1,
          recordStoredFile cat digest (normComps root)
            (relpathC (normComps root) cwd) [] ((normComps root).getLastD ""),
          if existedAlready then 0 else size,
          if existedAlready then size else 0⟩
  else
    runStore hash shadir (normComps root) (relpathC (normComps root) cwd)
      ⟨fs, cat, 0, 0⟩ (walkFiles fs (normComps root) shadir skipDotfiles)

/-! ## C1: the upsert-active sequence -/

theorem sameKey_refl (r : Row) : sameKey r r = true := by
  simp [sameKey]

theorem sameKey_clear (r q : Row) : sameKey r { q with deleted := false } = sameKey r q := rfl

theorem countKey_clearDeleted (cat : Catalog) (r r' : Row) :
    countKey (clearDeleted cat r') r = countKey cat r := by
  unfold countKey clearDeleted
  rw [List.countP_map]
  apply countP_congr'
  intro q _
  by_cases h : sameKey r' q = true
  · rw [Function.comp_apply, if_pos h, sameKey_clear]
  · rw [Function.comp_apply, if_neg h]

theorem length_clearDeleted (cat : Catalog) (r : Row) :
    (clearDeleted cat r).length = cat.length := by
  unfold clearDeleted
  exact List.length_map _ _

/-- **C1**: the upsert-active sequence (insert-if-absent, then clear the
deleted flag for the unique key) leaves exactly one row for that key, marks
it active, and does not add a row when the key already existed — a
previously soft-deleted row is reactivated in place. -/
theorem upsertActiveReactivates (cat : Catalog) (digest : String)
    (absRoot rootRel relDir : FsPath) (filename : String)
    (hk : countKey cat ⟨digest, absRoot, rootRel, relDir, filename, false⟩ ≤ 1) :
    countKey (recordStoredFile cat digest absRoot rootRel relDir filename)
        ⟨digest, absRoot, rootRel, relDir, filename, false⟩ = 1
    ∧ (∀ q ∈ recordStoredFile cat digest absRoot rootRel relDir filename,
        sameKey ⟨digest, absRoot, rootRel, relDir, filename, false⟩ q = true →
        q.deleted = false)
    ∧ (countKey cat ⟨digest, absRoot, rootRel, relDir, filename, false⟩ = 1 →
        (recordStoredFile cat digest absRoot rootRel relDir filename).length
          = cat.length) := by
  set row : Row := ⟨digest, absRoot, rootRel, relDir, filename, false⟩ with hrow
  have hrec : recordStoredFile cat digest absRoot rootRel relDir filename
      = clearDeleted (insertOrIgnore cat row) row := rfl
  have hmemdel : ∀ q ∈ clearDeleted (insertOrIgnore cat row) row,
      sameKey row q = true → q.deleted = false := by
    intro q hq hkey
    unfold clearDeleted at hq
    rcases List.mem_map.mp hq with ⟨x, hx, he⟩
    by_cases hsk : sameKey row x = true
    · rw [if_pos hsk] at he
      rw [← he]
    · rw [if_neg hsk] at he
      rw [← he] at hkey
      exact absurd hkey hsk
  by_cases hany : cat.any (sameKey row) = true
  · have hins : insertOrIgnore cat row = cat := by
      unfold insertOrIgnore
      rw [if_pos hany]
    have hpos : 0 < countKey cat row := by
      rcases List.any_eq_true.mp hany with ⟨q, hq, hkq⟩
      exact List.countP_pos_iff.mpr ⟨q, hq, hkq⟩
    refine ⟨?_, ?_, ?_⟩
    · rw [hrec, hins, countKey_clearDeleted]
      omega
    · intro q hq
      rw [hrec, hins] at hq
      exact hmemdel q (by rw [hins]; exact hq)
    · intro _
      rw [hrec, hins, length_clearDeleted]
  · have hins : insertOrIgnore cat row = cat ++ [row] := by
      unfold insertOrIgnore
      rw [if_neg hany]
    have hzero : countKey cat row = 0 := by
      by_contra hc
      rcases List.countP_pos_iff.mp (Nat.pos_of_ne_zero hc) with ⟨q, hq, hkq⟩
      exact hany (List.any_eq_true.mpr ⟨q, hq, hkq⟩)
    refine ⟨?_, ?_, ?_⟩
    · rw [hrec, hins, countKey_clearDeleted]
      unfold countKey
      rw [List.countP_append, List.countP_cons]
      unfold countKey at hzero
      rw [hzero]
      simp [sameKey_refl]
    · intro q hq
      rw [hrec, hins] at hq
      exact hmemdel q (by rw [hins]; exact hq)
    · intro h1
      rw [hzero] at h1
      cases h1

/-- Witness: re-recording a soft-deleted row reactivates it in place. -/
theorem upsertActiveReactivatesWitness :
    countKey (recordStoredFile [⟨"d", ["r"], ["rr"], [], "f", true⟩] "d" ["r"] ["rr"] [] "f")
        ⟨"d", ["r"], ["rr"], [], "f", false⟩ = 1
    ∧ (recordStoredFile [⟨"d", ["r"], ["rr"], [], "f", true⟩] "d" ["r"] ["rr"] [] "f").length
        = 1 := by
  have h := upsertActiveReactivates [⟨"d", ["r"], ["rr"], [], "f", true⟩]
    "d" ["r"] ["rr"] [] "f" (by decide)
  exact ⟨h.1, h.2.2 (by decide)⟩

/-! ## C8: the self-move guard of `store_digest` -/

theorem islinkF_of_file (fs : FS) (p : FsPath) (c : List Nat)
    (h : lookupFS fs p = some (.file c)) : islinkF fs p = false := by
  unfold islinkF
  rw [h]

theorem isfileF_of_file (fs : FS) (p : FsPath) (c : List Nat)
    (h : lookupFS fs p = some (.file c)) : isfileF fs p = true := by
  unfold isfileF resolveFS
  rw [h]

/-- **C8**: invoking `store_digest` with a source path that is its own blob
destination raises the invariant-violation error: no move, unlink or
symlink happens (the error carries no new filesystem state) and the
surrounding store step aborts before any catalog write. -/
theorem storeDigestSelfMoveGuard (hash : List Nat → String) (fs : FS) (cat : Catalog)
    (p shadir absRoot rootRel : FsPath) (c : List Nat) (b s : Nat)
    (hfile : lookupFS fs p = some (.file c))
    (hself : normComps p = normComps (ensureStorePath shadir (hash c))) :
    storeDigest fs p (hash c) shadir = .error "source equals destination"
    ∧ storeStep hash shadir absRoot rootRel ⟨fs, cat, b, s⟩ p
        = .error "source equals destination" := by
  have hlink := islinkF_of_file fs p c hfile
  have hisf := isfileF_of_file fs p c hfile
  have hguard : storeDigest fs p (hash c) shadir = .error "source equals destination" := by
    unfold storeDigest
    rw [if_neg (by simp [hlink, hisf])]
    rw [if_pos (by simpa using hself)]
  refine ⟨hguard, ?_⟩
  unfold storeStep computeDigest
  rw [if_neg (by simp [hlink, hisf]), hfile]
  simp [hguard]

/-- Witness: a blob file stored at its own destination triggers the guard. -/
theorem storeDigestSelfMoveGuardWitness :
    storeDigest [(["s", "ab", "ab"], .file [1])] ["s", "ab", "ab"] "ab" ["s"]
      = .error "source equals destination" := by
  have h := storeDigestSelfMoveGuard (fun _ => "ab") [(["s", "ab", "ab"], .file [1])]
    [] ["s", "ab", "ab"] ["s"] [] [] [1] 0 0 (by rfl) (by rfl)
  exact h.1

/-! ## C9: the walk never yields store paths -/

theorem commonComps_self : ∀ a : FsPath, commonComps a a = a := by
  intro a
  induction a with
  | nil => rfl
  | cons x xs ih => simp [commonComps, ih]

/-- **C9**: every path yielded by the ingestion/dedup walk lies outside the
store directory — it is neither the store directory itself nor under it, so
store and dedup never hash, move or replace a blob (or the default-located
catalog file inside the store). -/
theorem walkFilesOutsideStore (fs : FS) (root shadir : FsPath) (skipDotfiles : Bool)
    (p : FsPath) (h : p ∈ walkFiles fs root shadir skipDotfiles) :
    isUnderDir p shadir = false ∧ normComps p ≠ normComps shadir := by
  unfold walkFiles at h
  rw [List.mem_filter] at h
  have hfalse : isUnderDir p shadir = false := by
    rcases Bool.and_eq_true _ _ |>.mp h.2 with ⟨h3, _⟩
    rcases Bool.and_eq_true _ _ |>.mp h3 with ⟨_, h4⟩
    simpa using h4
  refine ⟨hfalse, ?_⟩
  intro heq
  have htrue : isUnderDir p shadir = true := by
    unfold isUnderDir
    rw [heq, commonComps_self]
    simp
  rw [htrue] at hfalse
  cases hfalse

/-- Witness: a concrete walk yields a path outside the store. -/
theorem walkFilesOutsideStoreWitness :
    isUnderDir ["w", "f"] ["s"] = false ∧ normComps ["w", "f"] ≠ normComps ["s"] :=
  walkFilesOutsideStore [(["w", "f"], .file [1])] ["w"] ["s"] false ["w", "f"] (by decide)

/-! ## Fixlinks repair (C7) -/

inductive FixOutcome where
  | unreadable
  | noDigest
  | missingTarget
  | hashMismatch
  | alreadyOk
  | fixed
deriving DecidableEq

/-- `_lookup_db_hash`: the most recent (highest rowid) active row at the
logical location; the stored value is lowered and checked against
`HASH_RE`. -/
def lookupDbHash (cat : Catalog) (rootRel relDir : FsPath) (filename : String) :
    Option String :=
  match cat.reverse.find? (fun r => r.rootRel == rootRel && r.dirpath == relDir
      && r.filename == filename && !r.deleted) with
  | none => none
  | some r =>
    let v := lowerStr r.shasum
    if isHex64 v then some v else none

/-- `_set_fixed_link_in_db`: soft-delete other active digests at the same
logical location, then run the upsert-active sequence (the same two SQL
statements as `_record_stored_file`). -/
def setFixedLinkInDb (cat : Catalog) (digest : String) (absRoot rootRel relDir : FsPath)
    (filename : String) : Catalog :=
  let cat1 := cat.map (fun r =>
    if r.rootRel == rootRel && r.dirpath == relDir && r.filename == filename
        && r.shasum != digest && !r.deleted
    then { r with deleted := true } else r)
  recordStoredFile cat1 digest absRoot rootRel relDir filename

/-- One link of the `handle_fixlinks` loop (source lines 760-813): read the
link, determine the digest (target basename when it is 64 hex, else the
catalog), apply the paranoia checks, and rewrite link and catalog only when
a fix is needed.  Reading a non-link raises `OSError` in `os.readlink`
(reported as an unreadable skip). -/
def fixlinkStep (hash : List Nat → String) (fs : FS) (cat : Catalog)
    (shadirAbs : FsPath) (paranoia : Nat) (absRoot rootRel relDir : FsPath)
    (filename : String) (linkPath : FsPath) : FS × Catalog × FixOutcome :=
  match lookupFS fs linkPath with
  | none => (fs, cat, .unreadable)
  | some (.file _) => (fs, cat, .unreadable)
  | some (.symlink tgt) =>
    let currentTarget := normComps tgt
    let d0 := lowerStr (currentTarget.getLastD "")
    let digestOpt := if isHex64 d0 then some d0
                     else lookupDbHash cat rootRel relDir filename
    match digestOpt with
    | none => (fs, cat, .noDigest)
    | some digest =>
      let canonicalTarget := shadirAbs ++ [digest.take 2, digest]
      let targetExists := isfileF fs canonicalTarget
      if 1 ≤ paranoia && !targetExists then (fs, cat, .missingTarget)
      else
        let mismatch :=
          if 2 ≤ paranoia && targetExists then
            match readFileF fs canonicalTarget with
            | some c => decide (hash c ≠ digest)
            | none => false
          else false
        if mismatch then (fs, cat, .hashMismatch)
        else
          let needsFix := decide (currentTarget ≠ normComps canonicalTarget)
          if !needsFix && paranoia == 0 then (fs, cat, .alreadyOk)
          else if !needsFix && 0 < paranoia && targetExists then (fs, cat, .alreadyOk)
          else
            (setFS fs linkPath (.symlink (normComps canonicalTarget)),
             setFixedLinkInDb cat digest absRoot rootRel relDir filename, .fixed)

/-- **C7**: at paranoia 2, a link whose resolved digest's canonical blob
exists but rehashes to a different digest is reported as a hash-mismatch
skip — the symlink is not rewritten and no catalog update is written; at
paranoia 1 or 2, a link whose canonical blob does not exist is likewise
skipped unchanged. -/
theorem fixlinksParanoiaSkips (hash : List Nat → String) (fs : FS) (cat : Catalog)
    (shadirAbs absRoot rootRel relDir : FsPath) (filename : String)
    (linkPath tgt : FsPath) (d : String) (paranoia : Nat)
    (hlink : lookupFS fs linkPath = some (.symlink tgt))
    (hd : d = lowerStr ((normComps tgt).getLastD ""))
    (hhex : isHex64 d = true) :
    (∀ c, isfileF fs (shadirAbs ++ [d.take 2, d]) = true →
      readFileF fs (shadirAbs ++ [d.take 2, d]) = some c → hash c ≠ d →
      fixlinkStep hash fs cat shadirAbs 2 absRoot rootRel relDir filename linkPath
        = (fs, cat, .hashMismatch))
    ∧ (1 ≤ paranoia → isfileF fs (shadirAbs ++ [d.take 2, d]) = false →
      fixlinkStep hash fs cat shadirAbs paranoia absRoot rootRel relDir filename linkPath
        = (fs, cat, .missingTarget)) := by
  constructor
  · intro c hex hread hne
    simp only [fixlinkStep, hlink, ← hd, hhex, if_true, hex, hread]
    simp [hne]
  · intro hp hex
    simp only [fixlinkStep, hlink, ← hd, hhex, if_true, hex]
    simp [hp]

/-- Witness: a corrupted blob is skipped at paranoia 2; a missing blob is
skipped at paranoia 1. -/
theorem fixlinksParanoiaSkipsWitness :
    fixlinkStep (fun _ => "zz")
        [(["w", "l"], .symlink ["s", "aa", String.mk (List.replicate 64 'a')]),
         (["s", "aa", String.mk (List.replicate 64 'a')], .file [1])]
        [] ["s"] 2 ["w"] ["w"] [] "l" ["w", "l"]
      = ([(["w", "l"], .symlink ["s", "aa", String.mk (List.replicate 64 'a')]),
          (["s", "aa", String.mk (List.replicate 64 'a')], .file [1])], [], .hashMismatch)
    ∧ fixlinkStep (fun _ => "zz")
        [(["w", "l"], .symlink ["s", "aa", String.mk (List.replicate 64 'a')])]
        [] ["s"] 1 ["w"] ["w"] [] "l" ["w", "l"]
      = ([(["w", "l"], .symlink ["s", "aa", String.mk (List.replicate 64 'a')])],
         [], .missingTarget) := by
  constructor
  · exact (fixlinksParanoiaSkips (fun _ => "zz")
      [(["w", "l"], .symlink ["s", "aa", String.mk (List.replicate 64 'a')]),
       (["s", "aa", String.mk (List.replicate 64 'a')], .file [1])]
      [] ["s"] ["w"] ["w"] [] "l" ["w", "l"]
      ["s", "aa", String.mk (List.replicate 64 'a')]
      (String.mk (List.replicate 64 'a')) 2
      (by rfl) (by rfl) (by rfl)).1 [1] (by rfl) (by rfl) (by decide)
  · exact (fixlinksParanoiaSkips (fun _ => "zz")
      [(["w", "l"], .symlink ["s", "aa", String.mk (List.replicate 64 'a')])]
      [] ["s"] ["w"] ["w"] [] "l" ["w", "l"]
      ["s", "aa", String.mk (List.replicate 64 'a')]
      (String.mk (List.replicate 64 'a')) 1
      (by rfl) (by rfl) (by rfl)).2 (by decide) (by rfl)

/-! ## Path normalization lemmas for the idempotence proof (C2) -/

/-- A component that `normpath` leaves alone. -/
def cleanComp (c : String) : Bool := !(c == "" || c == "." || c == "..")

/-- Digest strings whose shard and name are plain components; any 64-hex
digest satisfies this. -/
def safeDigest (d : String) : Bool := cleanComp d && cleanComp (d.take 2)

theorem normComps_fold_mem (p : FsPath) :
    ∀ (acc : List String) (x : String),
    x ∈ p.foldl (fun acc c =>
        if c == "" || c == "." then acc
        else if c == ".." then acc.tail
        else c :: acc) acc →
    x ∈ acc ∨ (x ∈ p ∧ cleanComp x = true) := by
  induction p with
  | nil =>
    intro acc x hx
    exact Or.inl hx
  | cons c cs ih =>
    intro acc x hx
    rw [List.foldl_cons] at hx
    by_cases h1 : (c == "" || c == ".") = true
    · rw [if_pos h1] at hx
      rcases ih acc x hx with h | h
      · exact Or.inl h
      · exact Or.inr ⟨List.mem_cons_of_mem _ h.1, h.2⟩
    · rw [if_neg h1] at hx
      by_cases h2 : (c == "..") = true
      · rw [if_pos h2] at hx
        rcases ih acc.tail x hx with h | h
        · exact Or.inl (List.mem_of_mem_tail h)
        · exact Or.inr ⟨List.mem_cons_of_mem _ h.1, h.2⟩
      · rw [if_neg h2] at hx
        rcases ih (c :: acc) x hx with h | h
        · rcases List.mem_cons.mp h with rfl | h
          · refine Or.inr ⟨List.mem_cons_self _ _, ?_⟩
            have h1' : (x == "" || x == ".") = false := by simpa using h1
            have h2' : (x == "..") = false := by simpa using h2
            simp [cleanComp, h1', h2']
          · exact Or.inl h
        · exact Or.inr ⟨List.mem_cons_of_mem _ h.1, h.2⟩

theorem normComps_mem_clean (p : FsPath) (x : String) (hx : x ∈ normComps p) :
    cleanComp x = true := by
  unfold normComps at hx
  rw [List.mem_reverse] at hx
  rcases normComps_fold_mem p [] x hx with h | h
  · cases h
  · exact h.2

theorem normComps_fold_clean (p : FsPath) (hp : ∀ x ∈ p, cleanComp x = true) :
    ∀ acc, p.foldl (fun acc c =>
        if c == "" || c == "." then acc
        else if c == ".." then acc.tail
        else c :: acc) acc = p.reverse ++ acc := by
  induction p with
  | nil =>
    intro acc
    rfl
  | cons c cs ih =>
    intro acc
    have hc := hp c (List.mem_cons_self c cs)
    have hc' : ((c == "" || c == ".") || (c == "..")) = false := by
      simpa [cleanComp] using hc
    have h1 : (c == "" || c == ".") = false := (Bool.or_eq_false_iff.mp hc').1
    have h2 : (c == "..") = false := (Bool.or_eq_false_iff.mp hc').2
    rw [List.foldl_cons, if_neg (by simp [h1]), if_neg (by simp [h2])]
    rw [ih (fun x hx => hp x (List.mem_cons_of_mem _ hx)) (c :: acc)]
    simp

theorem normComps_of_clean (p : FsPath) (hp : ∀ x ∈ p, cleanComp x = true) :
    normComps p = p := by
  unfold normComps
  rw [normComps_fold_clean p hp []]
  simp

theorem normComps_idem (p : FsPath) : normComps (normComps p) = normComps p :=
  normComps_of_clean _ (normComps_mem_clean p)

theorem lookupFS_norm (fs : FS) (p : FsPath) :
    lookupFS fs (normComps p) = lookupFS fs p := by
  unfold lookupFS
  rw [normComps_idem]

theorem normComps_append_clean (a b : FsPath) (ha : normComps a = a)
    (hb : ∀ x ∈ b, cleanComp x = true) : normComps (a ++ b) = a ++ b := by
  have hac : ∀ x ∈ a, cleanComp x = true := by
    intro x hx
    apply normComps_mem_clean a
    rw [ha]
    exact hx
  apply normComps_of_clean
  intro x hx
  rcases List.mem_append.mp hx with h | h
  · exact hac x h
  · exact hb x h

/-- The canonical blob location is already normalized. -/
theorem dest_norm (shadir : FsPath) (d : String) (hsh : normComps shadir = shadir)
    (hsafe : safeDigest d = true) :
    normComps (shadir ++ [d.take 2, d]) = shadir ++ [d.take 2, d] := by
  apply normComps_append_clean _ _ hsh
  intro x hx
  rcases Bool.and_eq_true _ _ |>.mp hsafe with ⟨hd, hd2⟩
  rcases List.mem_cons.mp hx with rfl | hx
  · exact hd2
  · rcases List.mem_cons.mp hx with rfl | hx
    · exact hd
    · cases hx

theorem commonComps_eq_right_iff : ∀ a b : FsPath, commonComps a b = b ↔ b <+: a := by
  intro a b
  induction b generalizing a with
  | nil =>
    cases a with
    | nil => simp [commonComps]
    | cons x xs => simp [commonComps]
  | cons y ys ih =>
    cases a with
    | nil =>
      simp [commonComps]
    | cons x xs =>
      unfold commonComps
      by_cases hxy : (x == y) = true
      · have : x = y := eq_of_beq hxy
        subst this
        rw [if_pos (by simp)]
        rw [List.cons_prefix_cons]
        constructor
        · intro h
          injection h with _ h2
          exact ⟨rfl, (ih xs).mp h2⟩
        · rintro ⟨_, h2⟩
          rw [(ih xs).mpr h2]
      · rw [if_neg hxy]
        constructor
        · intro h
          cases h
        · rintro h
          rw [List.cons_prefix_cons] at h
          exact absurd h.1.symm (by simpa using hxy)

theorem isUnderDir_iff (p q : FsPath) :
    isUnderDir p q = true ↔ normComps q <+: normComps p := by
  unfold isUnderDir
  rw [beq_iff_eq]
  exact commonComps_eq_right_iff _ _

/-- Membership in the walk gives the filter facts. -/
theorem mem_walkFiles (fs : FS) (root shadir : FsPath) (skipDotfiles : Bool)
    (p : FsPath) (h : p ∈ walkFiles fs root shadir skipDotfiles) :
    p ∈ fs.map (fun e => e.1) ∧ isUnderDir p root = true
      ∧ isUnderDir p shadir = false := by
  unfold walkFiles at h
  rw [List.mem_filter] at h
  rcases Bool.and_eq_true _ _ |>.mp h.2 with ⟨h3, _⟩
  rcases Bool.and_eq_true _ _ |>.mp h3 with ⟨h4, h5⟩
  exact ⟨h.1, h4, by simpa using h5⟩

/-- The walk predicate depends only on the path, so a key of the second
filesystem that already was a key of the first and is walked now was walked
then. -/
theorem mem_walkFiles_of_key (fs fs' : FS) (root shadir : FsPath) (skipDotfiles : Bool)
    (p : FsPath) (hk : p ∈ fs.map (fun e => e.1))
    (h : p ∈ walkFiles fs' root shadir skipDotfiles) :
    p ∈ walkFiles fs root shadir skipDotfiles := by
  unfold walkFiles at h ⊢
  rw [List.mem_filter] at h ⊢
  exact ⟨hk, h.2⟩

/-- The walk filter is invariant under normalization of the path. -/
theorem walkFiles_pred_norm (fs : FS) (root shadir : FsPath) (skipDotfiles : Bool)
    (p : FsPath)
    (h : p ∈ walkFiles fs root shadir skipDotfiles) :
    ∀ fs', normComps p ∈ fs'.map (fun e => e.1) →
      normComps p ∈ walkFiles fs' root shadir skipDotfiles := by
  intro fs' hk'
  unfold walkFiles at h ⊢
  rw [List.mem_filter] at h ⊢
  refine ⟨hk', ?_⟩
  have h2 := h.2
  unfold isUnderDir at h2 ⊢
  rw [normComps_idem]
  simpa [normComps_idem] using h2

/-! ## Lookup dynamics of the filesystem mutations -/

theorem find?_cons_pos' {α : Type} (p : α → Bool) (a : α) (l : List α) (h : p a = true) :
    (a :: l).find? p = some a := List.find?_cons_of_pos l h

theorem find?_cons_neg' {α : Type} (p : α → Bool) (a : α) (l : List α) (h : p a = false) :
    (a :: l).find? p = l.find? p := List.find?_cons_of_neg l (by simp [h])

theorem find?_filter_ne (fs : FS) (kp kq : FsPath) (hne : kq ≠ kp) :
    (fs.filter (fun z => !(z.1 == kp))).find? (fun z => z.1 == kq)
      = fs.find? (fun z => z.1 == kq) := by
  induction fs with
  | nil => rfl
  | cons x xs ih =>
    rw [List.filter_cons]
    by_cases hx : (x.1 == kq) = true
    · have hx' : x.1 = kq := eq_of_beq hx
      have hxp : (!(x.1 == kp)) = true := by
        simp only [Bool.not_eq_true', beq_eq_false_iff_ne]
        rw [hx']
        exact hne
      rw [if_pos hxp, find?_cons_pos' (fun z => z.1 == kq) x _ hx,
        find?_cons_pos' (fun z => z.1 == kq) x _ hx]
    · have hx' : (x.1 == kq) = false := by simpa using hx
      by_cases hxp : (!(x.1 == kp)) = true
      · rw [if_pos hxp, find?_cons_neg' (fun z => z.1 == kq) x _ hx',
          find?_cons_neg' (fun z => z.1 == kq) x _ hx']
        exact ih
      · rw [if_neg hxp, find?_cons_neg' (fun z => z.1 == kq) x _ hx']
        exact ih

theorem find?_filter_self (fs : FS) (kp : FsPath) :
    (fs.filter (fun z => !(z.1 == kp))).find? (fun z => z.1 == kp) = none := by
  induction fs with
  | nil => rfl
  | cons x xs ih =>
    rw [List.filter_cons]
    by_cases hxp : (!(x.1 == kp)) = true
    · rw [if_pos hxp, find?_cons_neg' (fun z => z.1 == kp) x _ (by simpa using hxp)]
      exact ih
    · rw [if_neg hxp]
      exact ih

theorem lookupFS_setFS (fs : FS) (p q : FsPath) (e : Entry) :
    lookupFS (setFS fs p e) q
      = if normComps q = normComps p then some e else lookupFS fs q := by
  unfold setFS removeFS lookupFS
  by_cases h : normComps q = normComps p
  · rw [if_pos h, find?_cons_pos' (fun z => z.1 == normComps q) (normComps p, e) _
      (by simpa using h.symm)]
    rfl
  · rw [if_neg h, find?_cons_neg' (fun z => z.1 == normComps q) (normComps p, e) _
      (by simp only [beq_eq_false_iff_ne]; exact fun hh => h hh.symm)]
    rw [find?_filter_ne fs (normComps p) (normComps q) h]

theorem lookupFS_removeFS (fs : FS) (p q : FsPath) :
    lookupFS (removeFS fs p) q
      = if normComps q = normComps p then none else lookupFS fs q := by
  unfold removeFS lookupFS
  by_cases h : normComps q = normComps p
  · rw [if_pos h, h, find?_filter_self fs (normComps p)]
    rfl
  · rw [if_neg h, find?_filter_ne fs (normComps p) (normComps q) h]

theorem keys_setFS (fs : FS) (p q : FsPath) (e : Entry)
    (h : q ∈ (setFS fs p e).map (fun z => z.1)) :
    q = normComps p ∨ q ∈ fs.map (fun z => z.1) := by
  unfold setFS removeFS at h
  rw [List.map_cons, List.mem_cons] at h
  rcases h with h | h
  · exact Or.inl h
  · right
    rcases List.mem_map.mp h with ⟨z, hz, hq⟩
    exact List.mem_map.mpr ⟨z, List.mem_of_mem_filter hz, hq⟩

theorem keys_removeFS (fs : FS) (p q : FsPath)
    (h : q ∈ (removeFS fs p).map (fun z => z.1)) : q ∈ fs.map (fun z => z.1) := by
  rcases List.mem_map.mp h with ⟨z, hz, hq⟩
  exact List.mem_map.mpr ⟨z, List.mem_of_mem_filter hz, hq⟩

/-! ## `compute_digest` and `store_digest` facts -/

theorem computeDigest_none_iff (hash : List Nat → String) (fs : FS) (p : FsPath) :
    computeDigest hash fs p = none
      ↔ (lookupFS fs p = none ∨ ∃ t, lookupFS fs p = some (.symlink t)) := by
  unfold computeDigest islinkF isfileF resolveFS
  cases hl : lookupFS fs p with
  | none => simp [hl]
  | some e =>
    cases e with
    | file c => simp [hl]
    | symlink t => simp [hl]

theorem computeDigest_some (hash : List Nat → String) (fs : FS) (p : FsPath)
    (d : String) (n : Nat) (h : computeDigest hash fs p = some (d, n)) :
    ∃ c, lookupFS fs p = some (.file c) ∧ d = hash c ∧ n = c.length := by
  unfold computeDigest at h
  cases hl : lookupFS fs p with
  | none =>
    rw [hl] at h
    unfold islinkF isfileF resolveFS at h
    simp [hl] at h
  | some e =>
    cases e with
    | file c =>
      rw [hl] at h
      unfold islinkF isfileF resolveFS at h
      simp only [hl] at h
      refine ⟨c, rfl, ?_⟩
      simp at h
      exact ⟨h.1.symm, h.2.symm⟩
    | symlink t =>
      rw [hl] at h
      unfold islinkF at h
      simp [hl] at h

theorem computeDigest_norm (hash : List Nat → String) (fs : FS) (p : FsPath) :
    computeDigest hash fs (normComps p) = computeDigest hash fs p := by
  unfold computeDigest islinkF isfileF resolveFS
  rw [lookupFS_norm, normComps_idem]

theorem storeDigest_not_skip (hash : List Nat → String) (fs : FS) (p : FsPath)
    (d : String) (n : Nat) (shadir : FsPath)
    (hc : computeDigest hash fs p = some (d, n)) :
    storeDigest fs p d shadir ≠ .ok none := by
  rcases computeDigest_some hash fs p d n hc with ⟨c, hl, _, _⟩
  unfold storeDigest
  rw [if_neg (by simp [islinkF_of_file fs p c hl, isfileF_of_file fs p c hl])]
  by_cases hg : normComps p == normComps (ensureStorePath shadir d)
  · rw [if_pos hg]
    intro h
    cases h
  · rw [if_neg hg]
    intro h
    cases h

/-- The filesystem produced by a successful `store_digest`: a symlink to the
canonical blob at the source, and (when the blob was new) the blob itself. -/
theorem storeDigest_ok (fs : FS) (p : FsPath) (d : String) (shadir : FsPath)
    (fs1 : FS) (dest : FsPath) (ex : Bool)
    (h : storeDigest fs p d shadir = .ok (some (fs1, dest, ex))) :
    dest = ensureStorePath shadir d ∧ normComps p ≠ normComps dest ∧
    fs1 = setFS (if ex then removeFS fs p
      else setFS (removeFS fs p) dest (.file (match lookupFS fs p with
        | some (.file c) => c
        | _ => []))) p (.symlink (normComps dest)) ∧
    ex = existsF fs dest := by
  unfold storeDigest at h
  by_cases h1 : (islinkF fs p || !(isfileF fs p)) = true
  · rw [if_pos h1] at h
    cases h
  · rw [if_neg h1] at h
    by_cases h2 : (normComps p == normComps (ensureStorePath shadir d)) = true
    · rw [if_pos h2] at h
      cases h
    · rw [if_neg h2] at h
      injection h with h
      injection h with h
      injection h with ha hb
      injection hb with hb hcx
      subst hb
      subst hcx
      subst ha
      exact ⟨rfl, by simpa using h2, rfl, rfl⟩

/-! ## Invariants of the store loop -/

theorem lookupFS_mem (fs : FS) (p : FsPath) (e : Entry)
    (h : lookupFS fs p = some e) : normComps p ∈ fs.map (fun z => z.1) := by
  unfold lookupFS at h
  cases hf : fs.find? (fun z => z.1 == normComps p) with
  | none => rw [hf] at h; cases h
  | some z =>
    have hz := List.find?_some hf
    have hmem := List.mem_of_find?_eq_some hf
    exact List.mem_map.mpr ⟨z, hmem, eq_of_beq hz⟩

theorem lookupFS_congr (fs : FS) (p q : FsPath) (h : normComps p = normComps q) :
    lookupFS fs p = lookupFS fs q := by
  unfold lookupFS
  rw [h]

theorem isfileF_some (fs : FS) (p : FsPath) (h : isfileF fs p = true) :
    ∃ e, lookupFS fs p = some e := by
  unfold isfileF resolveFS at h
  cases hl : lookupFS fs p with
  | none => rw [hl] at h; cases h
  | some e => exact ⟨e, rfl⟩

theorem isUnderDir_trans (p q r : FsPath) (h1 : isUnderDir p q = true)
    (h2 : isUnderDir q r = true) : isUnderDir p r = true := by
  rw [isUnderDir_iff] at h1 h2 ⊢
  exact h2.trans h1

theorem dest_under (shadir : FsPath) (d : String) (hsh : normComps shadir = shadir)
    (hsafe : safeDigest d = true) :
    isUnderDir (shadir ++ [d.take 2, d]) shadir = true := by
  rw [isUnderDir_iff, hsh, dest_norm shadir d hsh hsafe]
  exact List.prefix_append _ _

theorem walkFiles_empty_of_under (fs : FS) (root shadir : FsPath) (skipDotfiles : Bool)
    (h : isUnderDir root shadir = true) :
    walkFiles fs root shadir skipDotfiles = [] := by
  unfold walkFiles
  rw [List.filter_eq_nil_iff]
  intro p _
  intro hpred
  rcases Bool.and_eq_true _ _ |>.mp hpred with ⟨h3, _⟩
  rcases Bool.and_eq_true _ _ |>.mp h3 with ⟨h4, h5⟩
  have := isUnderDir_trans p root shadir h4 h
  rw [this] at h5
  cases h5

/-- One store step, seen through `lookupFS`: each path is untouched, now a
symlink at the processed path, or lies under the store. -/
theorem storeStep_lookup (hash : List Nat → String) (shadir aR rR : FsPath)
    (hsh : normComps shadir = shadir) (hhex : ∀ c, safeDigest (hash c) = true)
    (st st' : StoreState) (p' : FsPath)
    (h : storeStep hash shadir aR rR st p' = .ok st') (q : FsPath) :
    lookupFS st'.fs q = lookupFS st.fs q
    ∨ (∃ t, lookupFS st'.fs q = some (.symlink t) ∧ normComps q = normComps p')
    ∨ isUnderDir q shadir = true := by
  unfold storeStep at h
  cases hcd : computeDigest hash st.fs p' with
  | none =>
    rw [hcd] at h
    injection h with h
    rw [← h]
    exact Or.inl rfl
  | some dn =>
    obtain ⟨d, n⟩ := dn
    rw [hcd] at h
    dsimp only at h
    cases hsd : storeDigest st.fs p' d shadir with
    | error e =>
      rw [hsd] at h
      cases h
    | ok o =>
      cases o with
      | none =>
        exact absurd hsd (storeDigest_not_skip hash st.fs p' d n shadir hcd)
      | some y =>
        obtain ⟨fs1, dest, ex⟩ := y
        rw [hsd] at h
        injection h with h
        obtain ⟨hdest, hneq, hfs1, hex⟩ := storeDigest_ok st.fs p' d shadir fs1 dest ex hsd
        obtain ⟨c, hl, hdc, hnc⟩ := computeDigest_some hash st.fs p' d n hcd
        have hsafe : safeDigest d = true := by
          rw [hdc]
          exact hhex c
        have hdn : normComps dest = dest := by
          rw [hdest]
          exact dest_norm shadir d hsh hsafe
        have hfs' : st'.fs = fs1 := by
          rw [← h]
        by_cases h1 : normComps q = normComps p'
        · right
          left
          refine ⟨normComps dest, ?_, h1⟩
          rw [hfs', hfs1, lookupFS_setFS, if_pos h1]
        · by_cases h2 : normComps q = dest
          · right
            right
            rw [isUnderDir_iff, hsh, h2, hdest]
            exact List.prefix_append _ _
          · left
            rw [hfs', hfs1, lookupFS_setFS, if_neg h1]
            cases hexv : ex with
            | true =>
              rw [hexv] at hfs1
              rw [if_pos rfl, lookupFS_removeFS, if_neg h1]
            | false =>
              rw [hexv] at hfs1
              rw [if_neg (by simp), lookupFS_setFS,
                if_neg (by rw [hdn]; exact h2), lookupFS_removeFS, if_neg h1]

/-- One store step, seen through the key set. -/
theorem storeStep_keys (hash : List Nat → String) (shadir aR rR : FsPath)
    (hsh : normComps shadir = shadir) (hhex : ∀ c, safeDigest (hash c) = true)
    (st st' : StoreState) (p' : FsPath)
    (h : storeStep hash shadir aR rR st p' = .ok st') (q : FsPath)
    (hq : q ∈ st'.fs.map (fun z => z.1)) :
    q ∈ st.fs.map (fun z => z.1) ∨ q = normComps p' ∨ isUnderDir q shadir = true := by
  unfold storeStep at h
  cases hcd : computeDigest hash st.fs p' with
  | none =>
    rw [hcd] at h
    injection h with h
    rw [← h] at hq
    exact Or.inl hq
  | some dn =>
    obtain ⟨d, n⟩ := dn
    rw [hcd] at h
    dsimp only at h
    cases hsd : storeDigest st.fs p' d shadir with
    | error e =>
      rw [hsd] at h
      cases h
    | ok o =>
      cases o with
      | none =>
        exact absurd hsd (storeDigest_not_skip hash st.fs p' d n shadir hcd)
      | some y =>
        obtain ⟨fs1, dest, ex⟩ := y
        rw [hsd] at h
        injection h with h
        obtain ⟨hdest, hneq, hfs1, hex⟩ := storeDigest_ok st.fs p' d shadir fs1 dest ex hsd
        obtain ⟨c, hl, hdc, hnc⟩ := computeDigest_some hash st.fs p' d n hcd
        have hsafe : safeDigest d = true := by
          rw [hdc]
          exact hhex c
        have hdn : normComps dest = dest := by
          rw [hdest]
          exact dest_norm shadir d hsh hsafe
        have hfs' : st'.fs = fs1 := by
          rw [← h]
        rw [hfs', hfs1] at hq
        rcases keys_setFS _ _ _ _ hq with hk | hk
        · exact Or.inr (Or.inl hk)
        · cases hexv : ex with
          | true =>
            rw [hexv] at hk
            rw [if_pos rfl] at hk
            exact Or.inl (keys_removeFS _ _ _ hk)
          | false =>
            rw [hexv] at hk
            rw [if_neg (by simp)] at hk
            rcases keys_setFS _ _ _ _ hk with hk2 | hk2
            · right
              right
              rw [hk2, hdn, hdest]
              exact dest_under shadir d hsh hsafe
            · exact Or.inl (keys_removeFS _ _ _ hk2)

/-- After its own step, the processed path is a symlink or still skippable:
its digest is no longer computed. -/
theorem storeStep_self_none (hash : List Nat → String) (shadir aR rR : FsPath)
    (st st' : StoreState) (p' : FsPath)
    (h : storeStep hash shadir aR rR st p' = .ok st') :
    computeDigest hash st'.fs p' = none := by
  unfold storeStep at h
  cases hcd : computeDigest hash st.fs p' with
  | none =>
    rw [hcd] at h
    injection h with h
    rw [← h]
    exact hcd
  | some dn =>
    obtain ⟨d, n⟩ := dn
    rw [hcd] at h
    dsimp only at h
    cases hsd : storeDigest st.fs p' d shadir with
    | error e =>
      rw [hsd] at h
      cases h
    | ok o =>
      cases o with
      | none =>
        exact absurd hsd (storeDigest_not_skip hash st.fs p' d n shadir hcd)
      | some y =>
        obtain ⟨fs1, dest, ex⟩ := y
        rw [hsd] at h
        injection h with h
        obtain ⟨hdest, hneq, hfs1, hex⟩ := storeDigest_ok st.fs p' d shadir fs1 dest ex hsd
        have hfs' : st'.fs = fs1 := by
          rw [← h]
        apply (computeDigest_none_iff hash st'.fs p').mpr
        right
        refine ⟨normComps (ensureStorePath shadir d), ?_⟩
        rw [hfs', hfs1, lookupFS_setFS, if_pos rfl, hdest]

theorem storeStep_preserves_none (hash : List Nat → String) (shadir aR rR : FsPath)
    (hsh : normComps shadir = shadir) (hhex : ∀ c, safeDigest (hash c) = true)
    (st st' : StoreState) (p' q : FsPath)
    (hq : isUnderDir q shadir = false)
    (h0 : computeDigest hash st.fs q = none)
    (h : storeStep hash shadir aR rR st p' = .ok st') :
    computeDigest hash st'.fs q = none := by
  rcases storeStep_lookup hash shadir aR rR hsh hhex st st' p' h q with hl | ⟨t, hl, _⟩ | hl
  · rw [computeDigest_none_iff] at h0 ⊢
    rw [hl]
    exact h0
  · exact (computeDigest_none_iff hash st'.fs q).mpr (Or.inr ⟨t, hl⟩)
  · rw [hl] at hq
    cases hq

theorem runStore_preserves_none (hash : List Nat → String) (shadir aR rR : FsPath)
    (hsh : normComps shadir = shadir) (hhex : ∀ c, safeDigest (hash c) = true) :
    ∀ (ps : List FsPath) (st st' : StoreState) (q : FsPath),
    isUnderDir q shadir = false →
    computeDigest hash st.fs q = none →
    runStore hash shadir aR rR st ps = .ok st' →
    computeDigest hash st'.fs q = none := by
  intro ps
  induction ps with
  | nil =>
    intro st st' q hq h0 h
    injection h with h
    rw [← h]
    exact h0
  | cons p rest ih =>
    intro st st' q hq h0 h
    unfold runStore at h
    cases hs : storeStep hash shadir aR rR st p with
    | error e =>
      rw [hs] at h
      cases h
    | ok st1 =>
      rw [hs] at h
      exact ih st1 st' q hq
        (storeStep_preserves_none hash shadir aR rR hsh hhex st st1 p q hq h0 hs) h

theorem runStore_none (hash : List Nat → String) (shadir aR rR : FsPath)
    (hsh : normComps shadir = shadir) (hhex : ∀ c, safeDigest (hash c) = true) :
    ∀ (ps : List FsPath) (st st' : StoreState),
    (∀ p ∈ ps, isUnderDir p shadir = false) →
    runStore hash shadir aR rR st ps = .ok st' →
    ∀ p ∈ ps, computeDigest hash st'.fs p = none := by
  intro ps
  induction ps with
  | nil =>
    intro st st' _ _ p hp
    cases hp
  | cons p0 rest ih =>
    intro st st' hps h p hp
    unfold runStore at h
    cases hs : storeStep hash shadir aR rR st p0 with
    | error e =>
      rw [hs] at h
      cases h
    | ok st1 =>
      rw [hs] at h
      rcases List.mem_cons.mp hp with rfl | hp
      · exact runStore_preserves_none hash shadir aR rR hsh hhex rest st1 st' p
          (hps p (List.mem_cons_self _ _))
          (storeStep_self_none hash shadir aR rR st st1 p hs) h
      · exact ih st1 st' (fun z hz => hps z (List.mem_cons_of_mem _ hz)) h p hp

theorem runStore_lookup (hash : List Nat → String) (shadir aR rR : FsPath)
    (hsh : normComps shadir = shadir) (hhex : ∀ c, safeDigest (hash c) = true) :
    ∀ (ps : List FsPath) (st st' : StoreState),
    runStore hash shadir aR rR st ps = .ok st' →
    ∀ q, lookupFS st'.fs q = lookupFS st.fs q
      ∨ (∃ t, lookupFS st'.fs q = some (.symlink t))
      ∨ isUnderDir q shadir = true := by
  intro ps
  induction ps with
  | nil =>
    intro st st' h q
    injection h with h
    rw [← h]
    exact Or.inl rfl
  | cons p rest ih =>
    intro st st' h q
    unfold runStore at h
    cases hs : storeStep hash shadir aR rR st p with
    | error e =>
      rw [hs] at h
      cases h
    | ok st1 =>
      rw [hs] at h
      rcases ih st1 st' h q with h1 | h1 | h1
      · rcases storeStep_lookup hash shadir aR rR hsh hhex st st1 p hs q
            with h2 | ⟨t, h2, _⟩ | h2
        · exact Or.inl (h1.trans h2)
        · exact Or.inr (Or.inl ⟨t, h1.trans h2⟩)
        · exact Or.inr (Or.inr h2)
      · exact Or.inr (Or.inl h1)
      · exact Or.inr (Or.inr h1)

theorem runStore_keys (hash : List Nat → String) (shadir aR rR : FsPath)
    (hsh : normComps shadir = shadir) (hhex : ∀ c, safeDigest (hash c) = true) :
    ∀ (ps : List FsPath) (st st' : StoreState),
    runStore hash shadir aR rR st ps = .ok st' →
    ∀ q, q ∈ st'.fs.map (fun z => z.1) →
      q ∈ st.fs.map (fun z => z.1) ∨ (∃ p ∈ ps, q = normComps p)
        ∨ isUnderDir q shadir = true := by
  intro ps
  induction ps with
  | nil =>
    intro st st' h q hq
    injection h with h
    rw [← h] at hq
    exact Or.inl hq
  | cons p rest ih =>
    intro st st' h q hq
    unfold runStore at h
    cases hs : storeStep hash shadir aR rR st p with
    | error e =>
      rw [hs] at h
      cases h
    | ok st1 =>
      rw [hs] at h
      rcases ih st1 st' h q hq with h1 | ⟨z, hz, h1⟩ | h1
      · rcases storeStep_keys hash shadir aR rR hsh hhex st st1 p hs q h1 with h2 | h2 | h2
        · exact Or.inl h2
        · exact Or.inr (Or.inl ⟨p, List.mem_cons_self _ _, h2⟩)
        · exact Or.inr (Or.inr h2)
      · exact Or.inr (Or.inl ⟨z, List.mem_cons_of_mem _ hz, h1⟩)
      · exact Or.inr (Or.inr h1)

theorem runStore_noop (hash : List Nat → String) (shadir aR rR : FsPath) :
    ∀ (ps : List FsPath) (fs : FS) (cat : Catalog),
    (∀ p ∈ ps, computeDigest hash fs p = none) →
    runStore hash shadir aR rR ⟨fs, cat, 0, 0⟩ ps = .ok ⟨fs, cat, 0, 0⟩ := by
  intro ps
  induction ps with
  | nil =>
    intro fs cat _
    rfl
  | cons p rest ih =>
    intro fs cat hnone
    unfold runStore storeStep
    rw [hnone p (List.mem_cons_self _ _)]
    exact ih fs cat (fun z hz => hnone z (List.mem_cons_of_mem _ hz))

/-- **C2**: storing the same root twice converges.  If the first run
succeeds, the second run succeeds with the same filesystem (Blob Store and
symlinks) and the same catalog, storing zero new bytes and skipping zero
bytes — because ingestion never hashes symlinks as sources.  Hypotheses:
digests are plain path components (true of all 64-hex digests), the store
directory is a normalized absolute path (`main` passes
`os.path.abspath`), and the initial filesystem is a real tree (no key is a
strict prefix of another key — a path cannot be both a file and a
directory). -/
theorem storeIdempotent (hash : List Nat → String) (fs0 : FS) (cat0 : Catalog)
    (root shadir cwd : FsPath) (skipDotfiles : Bool) (st1 : StoreState)
    (hhex : ∀ c, safeDigest (hash c) = true)
    (hsh : normComps shadir = shadir)
    (hwf : ∀ a ∈ fs0.map (fun z => z.1), ∀ b ∈ fs0.map (fun z => z.1),
        normComps a <+: normComps b → normComps a = normComps b)
    (h1 : handleStore hash fs0 cat0 root shadir cwd skipDotfiles = .ok st1) :
    handleStore hash st1.fs st1.cat root shadir cwd skipDotfiles
      = .ok ⟨st1.fs, st1.cat, 0, 0⟩ := by
  unfold handleStore at h1
  by_cases hf0 : isfileF fs0 (normComps root) = true
  · rw [if_pos hf0] at h1
    cases hcd : computeDigest hash fs0 (normComps root) with
    | none =>
      rw [hcd] at h1
      injection h1 with h1
      rw [← h1]
      unfold handleStore
      rw [if_pos hf0, hcd]
    | some dn =>
      obtain ⟨d, n⟩ := dn
      rw [hcd] at h1
      dsimp only at h1
      cases hsd : storeDigest fs0 (normComps root) d shadir with
      | error e =>
        rw [hsd] at h1
        cases h1
      | ok o =>
        cases o with
        | none =>
          exact absurd hsd (storeDigest_not_skip hash fs0 (normComps root) d n shadir hcd)
        | some y =>
          obtain ⟨fs1, dest, ex⟩ := y
          rw [hsd] at h1
          injection h1 with h1
          obtain ⟨hdest, hneq, hfs1, hexv⟩ :=
            storeDigest_ok fs0 (normComps root) d shadir fs1 dest ex hsd
          obtain ⟨c, hl, hdc, hnc⟩ := computeDigest_some hash fs0 (normComps root) d n hcd
          have hsafe : safeDigest d = true := by
            rw [hdc]
            exact hhex c
          have hdn : normComps dest = dest := by
            rw [hdest]
            exact dest_norm shadir d hsh hsafe
          have hfs' : st1.fs = fs1 := by
            rw [← h1]
          have hcat' : st1.cat = recordStoredFile cat0 d (normComps root)
              (relpathC (normComps root) cwd) [] ((normComps root).getLastD "") := by
            rw [← h1]
          have hlink : lookupFS fs1 (normComps root) = some (.symlink (normComps dest)) := by
            rw [hfs1, lookupFS_setFS, if_pos rfl]
          have hnone1 : computeDigest hash fs1 (normComps root) = none :=
            (computeDigest_none_iff hash fs1 (normComps root)).mpr
              (Or.inr ⟨normComps dest, hlink⟩)
          unfold handleStore
          rw [hfs', hcat']
          by_cases hf1 : isfileF fs1 (normComps root) = true
          · rw [if_pos hf1, hnone1]
          · rw [if_neg hf1]
            apply runStore_noop
            intro q hq
            obtain ⟨hqk, hqr, hqsh⟩ := mem_walkFiles fs1 (normComps root) shadir skipDotfiles q hq
            rw [hfs1] at hqk
            rcases keys_setFS _ _ _ _ hqk with hk | hk
            · have : normComps q = normComps (normComps root) := by
                rw [hk, normComps_idem, normComps_idem]
              rw [computeDigest_none_iff]
              right
              refine ⟨normComps dest, ?_⟩
              rw [lookupFS_congr fs1 q (normComps root) (by
                rw [this, normComps_idem])]
              exact hlink
            · have hkey : ∀ hk0 : q ∈ (removeFS fs0 (normComps root)).map (fun z => z.1),
                  computeDigest hash fs1 q = none := by
                intro hk0
                have hkfs0 : q ∈ fs0.map (fun z => z.1) := keys_removeFS _ _ _ hk0
                have hroot0 : normComps (normComps root) ∈ fs0.map (fun z => z.1) :=
                  lookupFS_mem fs0 (normComps root) _ hl
                have hpre : normComps (normComps root) <+: normComps q := by
                  have := (isUnderDir_iff q (normComps root)).mp hqr
                  rwa [normComps_idem] at this ⊢
                have heq := hwf (normComps root) (by rwa [normComps_idem] at hroot0) q hkfs0 hpre
                rw [computeDigest_none_iff]
                right
                refine ⟨normComps dest, ?_⟩
                rw [lookupFS_congr fs1 q (normComps root) (by
                  rw [← heq, normComps_idem])]
                exact hlink
              cases hexb : ex with
              | true =>
                rw [hexb] at hk
                rw [if_pos rfl] at hk
                exact hkey hk
              | false =>
                rw [hexb] at hk
                rw [if_neg (by simp)] at hk
                rcases keys_setFS _ _ _ _ hk with hk2 | hk2
                · exfalso
                  have : isUnderDir q shadir = true := by
                    rw [hk2, hdn, hdest]
                    exact dest_under shadir d hsh hsafe
                  rw [this] at hqsh
                  cases hqsh
                · exact hkey hk2
  · rw [if_neg hf0] at h1
    have hpsh : ∀ p ∈ walkFiles fs0 (normComps root) shadir skipDotfiles,
        isUnderDir p shadir = false := by
      intro p hp
      exact (mem_walkFiles fs0 (normComps root) shadir skipDotfiles p hp).2.2
    have hK1 := runStore_none hash shadir (normComps root) (relpathC (normComps root) cwd)
      hsh hhex _ _ _ hpsh h1
    have hLk := runStore_lookup hash shadir (normComps root) (relpathC (normComps root) cwd)
      hsh hhex _ _ _ h1
    have hKeys := runStore_keys hash shadir (normComps root) (relpathC (normComps root) cwd)
      hsh hhex _ _ _ h1
    unfold handleStore
    by_cases hf1 : isfileF st1.fs (normComps root) = true
    · rw [if_pos hf1]
      have hnone1 : computeDigest hash st1.fs (normComps root) = none := by
        obtain ⟨e, he⟩ := isfileF_some st1.fs (normComps root) hf1
        cases e with
        | symlink t =>
          exact (computeDigest_none_iff hash st1.fs (normComps root)).mpr (Or.inr ⟨t, he⟩)
        | file cc =>
          exfalso
          rcases hLk (normComps root) with hcase | ⟨t, hcase⟩ | hcase
          · rw [hcase] at he
            exact hf0 (isfileF_of_file fs0 (normComps root) cc he)
          · rw [hcase] at he
            cases he
          · have hempty : walkFiles fs0 (normComps root) shadir skipDotfiles = [] :=
              walkFiles_empty_of_under fs0 (normComps root) shadir skipDotfiles hcase
            rw [hempty] at h1
            injection h1 with h1
            rw [← h1] at he
            exact hf0 (isfileF_of_file fs0 (normComps root) cc he)
      rw [hnone1]
    · rw [if_neg hf1]
      apply runStore_noop
      intro q hq
      obtain ⟨hqk, hqr, hqsh⟩ := mem_walkFiles st1.fs (normComps root) shadir skipDotfiles q hq
      rcases hKeys q hqk with hk | ⟨p, hp, hk⟩ | hk
      · exact hK1 q (mem_walkFiles_of_key fs0 st1.fs (normComps root) shadir skipDotfiles q hk hq)
      · rw [hk, computeDigest_norm]
        exact hK1 p hp
      · rw [hk] at hqsh
        cases hqsh

/-- Witness: a concrete one-file tree stores once, and the second run is a
no-op with identical state and zero counters. -/
theorem storeIdempotentWitness :
    handleStore (fun _ => String.mk (List.replicate 64 'a'))
        [(["w", "d", "f.txt"], .file [1, 2, 3])] [] ["w", "d"] ["s"] ["w"] true
      = .ok ⟨[(["w", "d", "f.txt"],
            .symlink ["s", "aa", String.mk (List.replicate 64 'a')]),
          (["s", "aa", String.mk (List.replicate 64 'a')], .file [1, 2, 3])],
          [⟨String.mk (List.replicate 64 'a'), ["w", "d"], ["d"], ["."], "f.txt", false⟩],
          3, 0⟩
    ∧ handleStore (fun _ => String.mk (List.replicate 64 'a'))
        [(["w", "d", "f.txt"],
            .symlink ["s", "aa", String.mk (List.replicate 64 'a')]),
          (["s", "aa", String.mk (List.replicate 64 'a')], .file [1, 2, 3])]
        [⟨String.mk (List.replicate 64 'a'), ["w", "d"], ["d"], ["."], "f.txt", false⟩]
        ["w", "d"] ["s"] ["w"] true
      = .ok ⟨[(["w", "d", "f.txt"],
            .symlink ["s", "aa", String.mk (List.replicate 64 'a')]),
          (["s", "aa", String.mk (List.replicate 64 'a')], .file [1, 2, 3])],
          [⟨String.mk (List.replicate 64 'a'), ["w", "d"], ["d"], ["."], "f.txt", false⟩],
          0, 0⟩ := by
  have hrun : handleStore (fun _ => String.mk (List.replicate 64 'a'))
      [(["w", "d", "f.txt"], .file [1, 2, 3])] [] ["w", "d"] ["s"] ["w"] true
      = .ok ⟨[(["w", "d", "f.txt"],
          .symlink ["s", "aa", String.mk (List.replicate 64 'a')]),
        (["s", "aa", String.mk (List.replicate 64 'a')], .file [1, 2, 3])],
        [⟨String.mk (List.replicate 64 'a'), ["w", "d"], ["d"], ["."], "f.txt", false⟩],
        3, 0⟩ := by rfl
  refine ⟨hrun, ?_⟩
  have h2 := storeIdempotent (fun _ => String.mk (List.replicate 64 'a'))
    [(["w", "d", "f.txt"], .file [1, 2, 3])] [] ["w", "d"] ["s"] ["w"] true
    ⟨[(["w", "d", "f.txt"], .symlink ["s", "aa", String.mk (List.replicate 64 'a')]),
      (["s", "aa", String.mk (List.replicate 64 'a')], .file [1, 2, 3])],
      [⟨String.mk (List.replicate 64 'a'), ["w", "d"], ["d"], ["."], "f.txt", false⟩],
      3, 0⟩
    (fun c => by rfl) (by rfl) (by decide) hrun
  exact h2

/-! ## The extraction destination of a row (C3)

`extract_from_db` (lines 520-526) computes, for each row,
`dest_dir = join(abspath(root), dirpath)`, `dest_path = join(dest_dir,
filename)` and matches `target_rel = normpath(join(root_rel, dirpath,
filename))` against the normalized prefixes; `ensure_directory(dest_dir)`
(lines 397-404) raises when something that is not a directory already
occupies `dest_dir`. -/

/-- `posixpath.normpath` on the components of a relative path: leading
`".."` components are kept, empty result becomes `"."`. -/
def normCompsRel (p : FsPath) : FsPath :=
  let r := (p.foldl (fun acc c =>
    if c == "" || c == "." then acc
    else if c != ".." || acc.isEmpty || acc.headD "" == ".." then c :: acc
    else acc.tail) []).reverse
  if r.isEmpty then ["."] else r

/-- `target_rel = normpath(join(root_rel, dirpath, filename))`. -/
def rowTargetRelC (r : Row) : FsPath :=
  normCompsRel (r.rootRel ++ r.dirpath ++ [r.filename])

/-- `dest_dir = os.path.join(os.path.abspath(root), dirpath)`. -/
def destDirOfRow (r : Row) : FsPath := normComps r.root ++ r.dirpath

/-- `dest_path = os.path.join(dest_dir, filename)`. -/
def destPathOfRow (r : Row) : FsPath := destDirOfRow r ++ [r.filename]

/-- `_matches_prefix` at component level for clean relative paths: the
target equals the prefix or strictly extends it (the component rendering
of `startswith(prefix + os.sep)`). -/
def matchesPrefixC (targetRel : FsPath) (pres : List FsPath) : Bool :=
  pres.any (fun pre =>
    targetRel == pre || (pre.isPrefixOf targetRel && decide (targetRel ≠ pre)))

/-- `os.path.isdir` in the flat model: no entry occupies the path and some
entry lies strictly below it (directories are implicit; symlinks to
directories are not modeled). -/
def isdirF (fs : FS) (p : FsPath) : Bool :=
  lookupFS fs p == none
    && fs.any (fun z => (normComps p).isPrefixOf z.1 && decide (z.1 ≠ normComps p))

/-- The guard of `ensure_directory`: an existing non-directory at the
destination directory is a fatal `RuntimeError`. -/
def ensureDirectoryCheck (fs : FS) (p : FsPath) : Except String Unit :=
  if existsF fs p && !(isdirF fs p) then .error "extract directory is a file"
  else .ok ()

/-- **C3 (code bug)**: storing the single-file root `a.txt` (content `[9]`,
cwd `/w`) records `root_rel = "a.txt"` — already the file's own path — and
appends `filename = "a.txt"` again, so the row's logical path is the
doubled `a.txt/a.txt`.  Extracting either that recorded path or the
natural prefix `a.txt` matches the row, but the extraction destination
directory is `/w/a.txt` itself, which now holds the stored symlink, so
`ensure_directory` raises "extract directory is a file" and the round trip
aborts instead of materializing the content. -/
theorem singleFileRoundTripFails :
    handleStore (fun _ => String.mk (List.replicate 64 'a'))
        [(["w", "a.txt"], .file [9])] [] ["w", "a.txt"] ["s"] ["w"] true
      = .ok ⟨[(["w", "a.txt"],
            .symlink ["s", "aa", String.mk (List.replicate 64 'a')]),
          (["s", "aa", String.mk (List.replicate 64 'a')], .file [9])],
          [⟨String.mk (List.replicate 64 'a'), ["w", "a.txt"], ["a.txt"], [],
            "a.txt", false⟩], 1, 0⟩
    ∧ rowTargetRelC ⟨String.mk (List.replicate 64 'a'), ["w", "a.txt"], ["a.txt"], [],
        "a.txt", false⟩ = ["a.txt", "a.txt"]
    ∧ matchesPrefixC ["a.txt", "a.txt"] [["a.txt"]] = true
    ∧ destDirOfRow ⟨String.mk (List.replicate 64 'a'), ["w", "a.txt"], ["a.txt"], [],
        "a.txt", false⟩ = ["w", "a.txt"]
    ∧ lookupFS [(["w", "a.txt"],
          .symlink ["s", "aa", String.mk (List.replicate 64 'a')]),
        (["s", "aa", String.mk (List.replicate 64 'a')], .file [9])] ["w", "a.txt"]
      = some (.symlink ["s", "aa", String.mk (List.replicate 64 'a')])
    ∧ ensureDirectoryCheck [(["w", "a.txt"],
          .symlink ["s", "aa", String.mk (List.replicate 64 'a')]),
        (["s", "aa", String.mk (List.replicate 64 'a')], .file [9])] ["w", "a.txt"]
      = .error "extract directory is a file" :=
  ⟨by rfl, by rfl, by rfl, by rfl, by rfl, by rfl⟩

end Shadup
